import Mathlib

/-!
Verification of the Area Consolidation Engine of the pub-tracker repository
(`scripts/merge_small_areas.py`).

The Python source is shallowly embedded below.  Records fetched from the
store become the `Pub` structure; Python dicts that are used as
insertion-ordered maps (`area_groups`, `closest_areas`, `borough_counts`)
become insertion-ordered association lists; Python's `max(..., key=f)`
(which returns the first maximal element) becomes `maxByFirst`.

Coordinates are modelled as `Option ℚ` (a numeric value or SQL NULL).
Python truthiness of a coordinate (`if lat and lon:`) is `truthyCoord`:
`none` and the number `0` are falsy.  The `float(...)` conversion inside
`try` always succeeds on numeric values, so it imposes no extra condition
in this model.

The engine calls `haversine_distance` for distances.  The claims about the
clustering / selection / planning logic hold for an arbitrary distance
oracle, so the pipeline takes the distance function as an explicit
parameter `dist : ℚ → ℚ → ℚ → ℚ → ℚ`; `haversine_distance` itself is
embedded separately over the reals (trigonometry is not computable) and
its algebraic properties are proved there.  Counterexamples instantiate
`dist` with a concrete computable metric; the refuted behaviours are
purely combinatorial (vote counting, iteration order) and do not depend
on which metric produced the distances.
-/

namespace PubTracker

/-! ## Python string helpers -/

/-- Python whitespace for `str.strip()`. -/
def pyIsSpace (c : Char) : Bool :=
  c == ' ' || c == '\t' || c == '\n' || c == '\r' || c == '\x0b' || c == '\x0c'

/-- `str.strip()` on the character list: drop whitespace at both ends. -/
def pystripList (l : List Char) : List Char :=
  ((l.dropWhile pyIsSpace).reverse.dropWhile pyIsSpace).reverse

/-- Python `str.strip()`. -/
def pystrip (s : String) : String := String.mk (pystripList s.data)

/-- Python `str.lower()` (ASCII case folding suffices for the "none" sentinel). -/
def pylower (s : String) : String := s.toLower

/-! ## Data model -/

/-- One row of the `pubs_all` table as selected by the engine
(`id,name,address,area,borough,lat,lon`; the address is never read). -/
structure Pub where
  id : String
  name : String
  area : Option String
  borough : Option String
  lat : Option ℚ
  lon : Option ℚ
deriving DecidableEq, Repr

/-- Label normalization as performed at lines 121–123 and 148–149 of
`merge_small_areas.py`: a falsy value (NULL or `""`) is no label; the
stripped value must be non-empty and not the case-insensitive sentinel
`"none"`. Returns the stripped label when it is usable. -/
def normalizeLabel : Option String → Option String
  | none => none
  | some s =>
    if s = "" then none
    else
      if pystrip s = "" then none
      else if pylower (pystrip s) = "none" then none
      else some (pystrip s)

/-- Python truthiness of a coordinate value: NULL and the number 0 are falsy. -/
def truthyCoord : Option ℚ → Bool
  | none => false
  | some q => decide (q ≠ 0)

/-- The coordinate test of `group_pubs_by_area` (lines 126–134):
`if lat and lon:` followed by a `float(...)` conversion that always
succeeds on numeric values. -/
def validCoords (p : Pub) : Bool := truthyCoord p.lat && truthyCoord p.lon

/-- `float(pub.get('lat', 0))` — the stored value, defaulting to 0. -/
def getCoord (v : Option ℚ) : ℚ := v.getD 0

/-! ## Insertion-ordered maps (Python dicts) -/

/-- `d[k] = d.get(k, []) + [x]` on an insertion-ordered association list:
append to the existing entry, else add a new key at the end. -/
def upsertAppend {β : Type} (gs : List (String × List β)) (k : String) (x : β) :
    List (String × List β) :=
  match gs with
  | [] => [(k, [x])]
  | g :: rest => if g.1 = k then (g.1, g.2 ++ [x]) :: rest else g :: upsertAppend rest k x

/-- Dict lookup with `[]` as default. -/
def lookupList {β : Type} (gs : List (String × List β)) (k : String) : List β :=
  match gs with
  | [] => []
  | g :: rest => if g.1 = k then g.2 else lookupList rest k

/-- A fold step that classifies an element under an optional key and
appends it to that key's bucket. -/
def keyedStep {α β : Type} (κ : α → Option (String × β))
    (gs : List (String × List β)) (a : α) : List (String × List β) :=
  match κ a with
  | some kx => upsertAppend gs kx.1 kx.2
  | none => gs

/-- `counts[k] += 1` on an insertion-ordered counter (defaultdict(int)). -/
def bumpCount (cs : List (String × ℕ)) (k : String) : List (String × ℕ) :=
  match cs with
  | [] => [(k, 1)]
  | c :: rest => if c.1 = k then (c.1, c.2 + 1) :: rest else c :: bumpCount rest k

/-- Counter lookup, 0 when absent. -/
def lookupCount (cs : List (String × ℕ)) (k : String) : ℕ :=
  match cs with
  | [] => 0
  | c :: rest => if c.1 = k then c.2 else lookupCount rest k

/-- Python `max(l, key=f)` on a non-empty list: the first element with
maximal key (ties keep the earlier element). `none` on the empty list. -/
def maxByFirst {α : Type} (f : α → ℕ) : List α → Option α
  | [] => none
  | x :: xs => some (xs.foldl (fun b y => if f b < f y then y else b) x)

/-- Python `max` of a list of numbers (0 on the empty list, which the
engine never passes). -/
def listMax : List ℚ → ℚ
  | [] => 0
  | x :: xs => xs.foldl max x

/-! ## Cluster Builder (`group_pubs_by_area`, lines 116–136) -/

/-- The classification a record receives in the grouping loop: its
normalized area label, provided both coordinates are truthy. -/
def groupKey (p : Pub) : Option (String × Pub) :=
  match normalizeLabel p.area with
  | none => none
  | some a => if validCoords p then some (a, p) else none

/-- `group_pubs_by_area`: partition the records by normalized area label,
keeping only records whose coordinates pass the truthiness test. -/
def group_pubs_by_area (pubs : List Pub) : List (String × List Pub) :=
  pubs.foldl (keyedStep groupKey) []

/-- The membership condition of `group_pubs_by_area` for a fixed label. -/
def groupPred (L : String) (p : Pub) : Bool :=
  decide (normalizeLabel p.area = some L) && validCoords p

/-! ## Region resolution (`get_area_borough`, lines 139–156) -/

/-- The borough values that get a vote: normalized exactly like area
labels (falsy / empty-after-strip / "none" excluded). -/
def boroughVotes (ps : List Pub) : List String :=
  ps.filterMap (fun p => normalizeLabel p.borough)

/-- `get_area_borough`: most common usable borough among the area's
grouped members; `none` when the area is unknown or no usable borough
value exists. Python's `max(items, key=x[1])` keeps the first maximal
entry in insertion order. -/
def get_area_borough (area : String) (gs : List (String × List Pub)) : Option String :=
  match maxByFirst (fun c => c.2) ((boroughVotes (lookupList gs area)).foldl bumpCount []) with
  | some c => some c.1
  | none => none

/-! ## Nearest-Major Finder (`find_closest_large_area_pub`, lines 159–203) -/

/-- The skip conditions of the candidate loop: same id, same (stripped)
area as the excluded one, or falsy coordinate. -/
def eligiblePub (pub : Pub) (exclude_area : String) (o : Pub) : Bool :=
  decide (o.id ≠ pub.id) && decide (pystrip (o.area.getD "") ≠ exclude_area) &&
    truthyCoord o.lat && truthyCoord o.lon

/-- The distance the engine computes between two records. -/
def distOf (dist : ℚ → ℚ → ℚ → ℚ → ℚ) (p o : Pub) : ℚ :=
  dist (getCoord p.lat) (getCoord p.lon) (getCoord o.lat) (getCoord o.lon)

/-- One iteration of the candidate loop: ineligible candidates are
skipped, an eligible one replaces the running closest exactly when its
distance is strictly smaller (`if distance < closest_distance`). -/
def closestStep (dist : ℚ → ℚ → ℚ → ℚ → ℚ) (pub : Pub) (exclude_area : String)
    (acc : Option (Pub × ℚ)) (o : Pub) : Option (Pub × ℚ) :=
  if eligiblePub pub exclude_area o then
    match acc with
    | none => some (o, distOf dist pub o)
    | some pd => if distOf dist pub o < pd.2 then some (o, distOf dist pub o) else some pd
  else acc

/-- `find_closest_large_area_pub`: scan the flattened major-cluster
records in order, keeping the first strictly-smaller distance, starting
from infinity (modelled by the `none` accumulator: the first eligible
candidate always wins). -/
def find_closest_large_area_pub (dist : ℚ → ℚ → ℚ → ℚ → ℚ) (pub : Pub)
    (large_area_pubs : List Pub) (exclude_area : String) : Option (Pub × ℚ) :=
  large_area_pubs.foldl (closestStep dist pub exclude_area) none

/-! ## Target selection and planning (`merge_small_areas`, lines 206–414) -/

/-- One entry of a `closest_areas[target]` bucket (lines 288–292). -/
structure Vote where
  pub : Pub
  distance : ℚ
  closest_pub_name : String
deriving DecidableEq, Repr

/-- Why a cluster or record was skipped (the reason strings of lines
296–300, 312–316 and 337–341, with the formatted numbers kept as data). -/
inductive SkipReason where
  | noCandidate
  | rangeExceeded (maxDistance limit : ℚ)
  | noTarget
deriving DecidableEq, Repr

/-- An entry of the `skipped` list: record-level (lines 296–300) or
cluster-level (lines 312–316, 337–341). -/
inductive SkipEntry where
  | record (area : String) (pub : Pub) (reason : SkipReason)
  | cluster (area : String) (pubs : List Pub) (reason : SkipReason)
deriving DecidableEq, Repr

/-- One merge decision (the dict appended at lines 323–331). -/
structure MergeDecision where
  from_area : String
  to_area : String
  to_borough : Option String
  pubs : List Pub
  avg_distance : ℚ
  max_distance : ℚ
  count : ℕ
deriving DecidableEq, Repr

/-- The vote a small-cluster member casts: the stripped area of its
closest major-cluster record, with the distance and that record's name
(lines 283–292). -/
def voteKey (dist : ℚ → ℚ → ℚ → ℚ → ℚ) (allLarge : List Pub) (smallArea : String)
    (p : Pub) : Option (String × Vote) :=
  match find_closest_large_area_pub dist p allLarge smallArea with
  | some cpd => some (pystrip (cpd.1.area.getD ""), ⟨p, cpd.2, cpd.1.name⟩)
  | none => none

/-- The member loop of lines 281–300: build `closest_areas` and emit a
record-level skip for members with no candidate. -/
def collectVotes (dist : ℚ → ℚ → ℚ → ℚ → ℚ) (allLarge : List Pub) (smallArea : String)
    (smallPubs : List Pub) : List (String × List Vote) × List SkipEntry :=
  smallPubs.foldl (fun acc p =>
    match voteKey dist allLarge smallArea p with
    | some kv => (upsertAppend acc.1 kv.1 kv.2, acc.2)
    | none => (acc.1, acc.2 ++ [SkipEntry.record smallArea p SkipReason.noCandidate])) ([], [])

/-- `avg_distance` of line 307. -/
def avgDistance (vs : List Vote) : ℚ := (vs.map Vote.distance).sum / (vs.length : ℚ)

/-- Lines 302–342: pick the destination with the most votes
(`max(closest_areas.keys(), key=lambda k: len(closest_areas[k]))`,
first maximal key in insertion order; since the keys are distinct,
taking the maximal (key, bucket) pair by bucket length is the same
selection), apply the optional range gate on the maximal member distance,
and either produce the cluster's `MergeDecision` or a cluster-level skip. -/
def processSmallArea (dist : ℚ → ℚ → ℚ → ℚ → ℚ) (groups : List (String × List Pub))
    (allLarge : List Pub) (max_range_km : Option ℚ) (g : String × List Pub) :
    Option MergeDecision × List SkipEntry :=
  let cv := collectVotes dist allLarge g.1 g.2
  match maxByFirst (fun kv => kv.2.length) cv.1 with
  | none => (none, cv.2 ++ [SkipEntry.cluster g.1 g.2 SkipReason.noTarget])
  | some tv =>
    let maxd := listMax (tv.2.map Vote.distance)
    match max_range_km with
    | some R =>
      if R < maxd then
        (none, cv.2 ++ [SkipEntry.cluster g.1 g.2 (SkipReason.rangeExceeded maxd R)])
      else
        (some ⟨g.1, tv.1, get_area_borough tv.1 groups, tv.2.map Vote.pub,
          avgDistance tv.2, maxd, tv.2.length⟩, cv.2)
    | none =>
      (some ⟨g.1, tv.1, get_area_borough tv.1 groups, tv.2.map Vote.pub,
        avgDistance tv.2, maxd, tv.2.length⟩, cv.2)

/-- The minor clusters (`small_areas`, lines 234–241). -/
def smallAreas (pubs : List Pub) (min_pubs : ℕ) : List (String × List Pub) :=
  (group_pubs_by_area pubs).filter (fun g => decide (g.2.length < min_pubs))

/-- The major clusters (`large_areas`, lines 234–241). -/
def largeAreas (pubs : List Pub) (min_pubs : ℕ) : List (String × List Pub) :=
  (group_pubs_by_area pubs).filter (fun g => !decide (g.2.length < min_pubs))

/-- `all_large_area_pubs` (lines 264–267): major-cluster members
flattened in map order. -/
def allLargePubs (pubs : List Pub) (min_pubs : ℕ) : List Pub :=
  ((largeAreas pubs min_pubs).map Prod.snd).flatten

/-- The outcome of one run: the merge plan and the skip report. -/
structure RunResult where
  merges : List MergeDecision
  skipped : List SkipEntry
deriving DecidableEq, Repr

/-- `merge_small_areas`: the whole planning pass.  The early returns for
no records / no small areas / no large areas all yield an empty plan and
empty skip list, collapsed into the first branch. -/
def merge_small_areas (dist : ℚ → ℚ → ℚ → ℚ → ℚ) (pubs : List Pub) (min_pubs : ℕ)
    (max_range_km : Option ℚ) : RunResult :=
  if smallAreas pubs min_pubs = [] ∨ largeAreas pubs min_pubs = [] then ⟨[], []⟩
  else
    (smallAreas pubs min_pubs).foldl (fun acc g =>
      let r := processSmallArea dist (group_pubs_by_area pubs) (allLargePubs pubs min_pubs)
        max_range_km g
      ⟨acc.merges ++ r.1.toList, acc.skipped ++ r.2⟩) ⟨[], []⟩

/-! ## Merge Executor (`update_pub_area_and_borough`, lines 103–113, and
the apply loop of lines 380–405) -/

/-- The update payload: always the new area; the borough only when the
decision carries a truthy one (`if new_borough:`). -/
def update_pub_area_and_borough (p : Pub) (new_area : String) (new_borough : Option String) :
    Pub :=
  { p with area := some new_area,
           borough := match new_borough with
                      | some b => if b = "" then p.borough else some b
                      | none => p.borough }

/-- The cumulative effect of the apply loop on one stored record: each
decision containing the record's id rewrites its fields in plan order. -/
def applyMerges (merges : List MergeDecision) (p : Pub) : Pub :=
  merges.foldl (fun q m =>
    if m.pubs.any (fun x => x.id == q.id) then
      update_pub_area_and_borough q m.to_area m.to_borough
    else q) p

/-- The dataset after running the plan in apply mode (all updates succeed). -/
def applyPlan (pubs : List Pub) (merges : List MergeDecision) : List Pub :=
  pubs.map (applyMerges merges)

/-! ## Distance Function (`haversine_distance`, lines 48–73) -/

/-- `math.atan2` over the reals. -/
noncomputable def atan2 (y x : ℝ) : ℝ :=
  if 0 < x then Real.arctan (y / x)
  else if x < 0 then
    (if 0 ≤ y then Real.arctan (y / x) + Real.pi else Real.arctan (y / x) - Real.pi)
  else
    (if 0 < y then Real.pi / 2 else if y < 0 then -(Real.pi / 2) else 0)

/-- `math.radians`. -/
noncomputable def radians (x : ℝ) : ℝ := x * Real.pi / 180

/-- The intermediate `a` of the haversine formula (lines 66–69). -/
noncomputable def hav_a (lat1 lon1 lat2 lon2 : ℝ) : ℝ :=
  Real.sin ((radians lat2 - radians lat1) / 2) ^ 2 +
    Real.cos (radians lat1) * Real.cos (radians lat2) *
      Real.sin ((radians lon2 - radians lon1) / 2) ^ 2

/-- `haversine_distance`: great-circle distance, Earth radius 6371.0 km. -/
noncomputable def haversine_distance (lat1 lon1 lat2 lon2 : ℝ) : ℝ :=
  6371.0 * (2 * atan2 (Real.sqrt (hav_a lat1 lon1 lat2 lon2))
    (Real.sqrt (1 - hav_a lat1 lon1 lat2 lon2)))

/-! ## Concrete data for counterexamples -/

/-- A concrete computable metric used to instantiate the engine's
distance oracle in counterexamples. -/
def taxiDist (lat1 lon1 lat2 lon2 : ℚ) : ℚ := |lat1 - lat2| + |lon1 - lon2|

def z1pub : Pub := ⟨"z1", "Z1", some "Z", none, some 1, some 10⟩
def z2pub : Pub := ⟨"z2", "Z2", some "Z", none, some 1, some 11⟩
def z3pub : Pub := ⟨"z3", "Z3", some "Z", none, some 1, some 12⟩
def a1pub : Pub := ⟨"a1", "A1", some "A", none, some 1, some (-10)⟩
def a2pub : Pub := ⟨"a2", "A2", some "A", none, some 1, some (-11)⟩
def a3pub : Pub := ⟨"a3", "A3", some "A", none, some 1, some (-12)⟩
def s1pub : Pub := ⟨"s1", "S1", some "S", none, some 1, some 8⟩
def s2pub : Pub := ⟨"s2", "S2", some "S", none, some 1, some (-19/2)⟩

/-- Input whose minor cluster "S" splits its two votes between the major
clusters "Z" (member s1, distance 2) and "A" (member s2, distance 1/2). -/
def exPubs : List Pub := [z1pub, z2pub, z3pub, a1pub, a2pub, a3pub, s1pub, s2pub]

def b1c3 : Pub := ⟨"b1", "B1", some "B", none, some 1, some 3⟩
def b2c3 : Pub := ⟨"b2", "B2", some "B", none, some 1, some 4⟩
def b3c3 : Pub := ⟨"b3", "B3", some "B", none, some 1, some 5⟩
def a1c3 : Pub := ⟨"a4", "A4", some "A", none, some 2, some 2⟩
def a2c3 : Pub := ⟨"a5", "A5", some "A", none, some 2, some 3⟩
def a3c3 : Pub := ⟨"a6", "A6", some "A", none, some 2, some 4⟩
def sc3 : Pub := ⟨"s3", "S3", some "S", none, some 1, some 1⟩

/-- Input where the record of minor cluster "S" is equidistant (distance 2)
from a member of major cluster "B" and a member of major cluster "A", and
"B" precedes "A" in input order. -/
def pubsC3 : List Pub := [b1c3, b2c3, b3c3, a1c3, a2c3, a3c3, sc3]

/-- The single decision the engine produces on `exPubs` (only the member
that voted for the chosen destination is listed). -/
def exDecision : MergeDecision := ⟨"S", "Z", none, [s1pub], 2, 2, 1⟩

/-- A labeled record with no coordinates at all. -/
def c7pub : Pub := ⟨"c7", "NoCoords", some "Lonely", none, none, none⟩

/-- A labeled record whose latitude is the numeric value zero. -/
def c6pub : Pub := ⟨"c6", "Zero", some "Area51", none, some 0, some 1⟩

def w1pub : Pub := ⟨"w1", "W1", some "L", some "Central", some 1, some 1⟩
def w2pub : Pub := ⟨"w2", "W2", some "L", some "Central", some 1, some 2⟩
def w3pub : Pub := ⟨"w3", "W3", some "L", some "Central", some 1, some 3⟩
def w4pub : Pub := ⟨"w4", "W4", some "M", none, some 1, some 4⟩

/-- Input with one major cluster "L" and a single-member minor cluster
"M"; the first run merges all of "M" into "L". -/
def wPubs : List Pub := [w1pub, w2pub, w3pub, w4pub]


theorem lookupList_upsertAppend {β : Type} (gs : List (String × List β)) (k L : String) (x : β) :
    lookupList (upsertAppend gs k x) L =
      if L = k then lookupList gs L ++ [x] else lookupList gs L := by
  induction gs with
  | nil =>
    by_cases h : L = k <;> simp [upsertAppend, lookupList, h]
    · intro h2; exact absurd h2.symm h
  | cons g rest ih =>
    by_cases hgk : g.1 = k
    · by_cases hgL : g.1 = L
      · simp [upsertAppend, hgk, lookupList, hgL, hgL ▸ hgk]
      · have h1 : ¬ L = k := fun h => hgL (h ▸ hgk)
        have h2 : ¬ k = L := fun h => h1 h.symm
        simp [upsertAppend, hgk, lookupList, hgL, h1, h2]
    · by_cases hgL : g.1 = L
      · have : ¬ L = k := fun h => hgk (hgL.trans h)
        simp [upsertAppend, hgk, lookupList, hgL, this]
      · simp [upsertAppend, hgk, lookupList, hgL, ih]

theorem lookupList_foldl_keyedStep {α β : Type} (κ : α → Option (String × β)) (l : List α)
    (gs : List (String × List β)) (L : String) :
    lookupList (l.foldl (keyedStep κ) gs) L =
      lookupList gs L ++ l.filterMap (fun a =>
        (κ a).bind (fun kx => if kx.1 = L then some kx.2 else none)) := by
  induction l generalizing gs with
  | nil => simp
  | cons a rest ih =>
    rw [List.foldl_cons, ih]
    cases hκ : κ a with
    | none => simp [keyedStep, hκ]
    | some kx =>
      by_cases hkL : kx.1 = L
      · simp [keyedStep, hκ, lookupList_upsertAppend, hkL]
      · have : ¬ L = kx.1 := fun h => hkL h.symm
        simp [keyedStep, hκ, lookupList_upsertAppend, hkL, this]


theorem keys_upsertAppend {β : Type} (gs : List (String × List β)) (k : String) (x : β) :
    (upsertAppend gs k x).map Prod.fst =
      if k ∈ gs.map Prod.fst then gs.map Prod.fst else gs.map Prod.fst ++ [k] := by
  induction gs with
  | nil => simp [upsertAppend]
  | cons g rest ih =>
    by_cases hgk : g.1 = k
    · simp [upsertAppend, hgk]
    · have hkg : ¬ k = g.1 := fun h => hgk h.symm
      by_cases hmem : k ∈ rest.map Prod.fst
      · simp [upsertAppend, hgk, ih, hmem, hkg]
      · simp [upsertAppend, hgk, ih, hmem, hkg]

theorem nodupKeys_upsertAppend {β : Type} (gs : List (String × List β)) (k : String) (x : β)
    (h : (gs.map Prod.fst).Nodup) : ((upsertAppend gs k x).map Prod.fst).Nodup := by
  rw [keys_upsertAppend]
  by_cases hmem : k ∈ gs.map Prod.fst
  · simpa [hmem]
  · simpa [hmem] using List.Nodup.append h (List.nodup_singleton k) (by simpa using hmem)

theorem nodupKeys_foldl_keyedStep {α β : Type} (κ : α → Option (String × β)) (l : List α)
    (gs : List (String × List β)) (h : (gs.map Prod.fst).Nodup) :
    (((l.foldl (keyedStep κ) gs)).map Prod.fst).Nodup := by
  induction l generalizing gs with
  | nil => simpa
  | cons a rest ih =>
    rw [List.foldl_cons]
    apply ih
    cases hκ : κ a with
    | none => simpa [keyedStep, hκ]
    | some kx => simpa [keyedStep, hκ] using nodupKeys_upsertAppend gs kx.1 kx.2 h

theorem valuesNonempty_upsertAppend {β : Type} (gs : List (String × List β)) (k : String) (x : β)
    (h : ∀ e ∈ gs, e.2 ≠ []) : ∀ e ∈ upsertAppend gs k x, e.2 ≠ [] := by
  induction gs with
  | nil =>
    intro e he
    simp [upsertAppend] at he
    subst he
    simp
  | cons g rest ih =>
    intro e he
    by_cases hgk : g.1 = k
    · simp only [upsertAppend, if_pos hgk] at he
      rcases List.mem_cons.mp he with he | he
      · subst he; simp
      · exact h e (List.mem_cons_of_mem g he)
    · simp only [upsertAppend, if_neg hgk] at he
      rcases List.mem_cons.mp he with he | he
      · subst he; exact h e (List.mem_cons_self e rest)
      · exact ih (fun e2 he2 => h e2 (List.mem_cons_of_mem g he2)) e he

theorem valuesNonempty_foldl_keyedStep {α β : Type} (κ : α → Option (String × β)) (l : List α)
    (gs : List (String × List β)) (h : ∀ e ∈ gs, e.2 ≠ []) :
    ∀ e ∈ l.foldl (keyedStep κ) gs, e.2 ≠ [] := by
  induction l generalizing gs with
  | nil => exact h
  | cons a rest ih =>
    rw [List.foldl_cons]
    refine ih _ ?_
    intro e he
    cases hκ : κ a with
    | none =>
      simp only [keyedStep, hκ] at he
      exact h e he
    | some kx =>
      exact valuesNonempty_upsertAppend gs kx.1 kx.2 h e (by simpa [keyedStep, hκ] using he)

theorem lookupList_of_mem {β : Type} (gs : List (String × List β)) (k : String) (v : List β)
    (hnd : (gs.map Prod.fst).Nodup) (hmem : (k, v) ∈ gs) : lookupList gs k = v := by
  induction gs with
  | nil => simp at hmem
  | cons g rest ih =>
    rcases List.mem_cons.mp hmem with he | he
    · rw [← he]; simp [lookupList]
    · have hk : k ∈ rest.map Prod.fst := by
        exact List.mem_map.mpr ⟨(k, v), he, rfl⟩
      have hgk : ¬ g.1 = k := by
        intro h
        rw [List.map_cons, List.nodup_cons] at hnd
        exact hnd.1 (h ▸ hk)
      rw [lookupList]
      simp [hgk]
      exact ih (by rw [List.map_cons, List.nodup_cons] at hnd; exact hnd.2) he

theorem mem_of_lookupList_ne_nil {β : Type} (gs : List (String × List β)) (k : String)
    (h : lookupList gs k ≠ []) : (k, lookupList gs k) ∈ gs := by
  induction gs with
  | nil => simp [lookupList] at h
  | cons g rest ih =>
    by_cases hgk : g.1 = k
    · rw [lookupList] at h ⊢
      simp [hgk] at h ⊢
      left
      exact Prod.ext hgk.symm rfl
    · rw [lookupList] at h ⊢
      simp [hgk] at h ⊢
      right
      exact ih h


theorem groupKey_case (L : String) (p : Pub) :
    (groupKey p).bind (fun kx => if kx.1 = L then some kx.2 else none) =
      if groupPred L p then some p else none := by
  unfold groupKey groupPred
  cases hn : normalizeLabel p.area with
  | none => simp
  | some a =>
    by_cases hv : validCoords p
    · by_cases haL : a = L
      · simp [hv, haL]
      · simp [hv, haL]
    · simp [hv]

theorem filterMap_eq_filter_of_eq {α : Type} (f : α → Option α) (q : α → Bool)
    (hfq : ∀ a, f a = if q a then some a else none) (l : List α) :
    l.filterMap f = l.filter q := by
  induction l with
  | nil => simp
  | cons a rest ih =>
    rw [List.filterMap_cons, List.filter_cons, hfq a]
    by_cases h : q a <;> simp [h, ih]

theorem lookup_group_eq_filter (pubs : List Pub) (L : String) :
    lookupList (group_pubs_by_area pubs) L = pubs.filter (groupPred L) := by
  rw [group_pubs_by_area, lookupList_foldl_keyedStep]
  have hnil : lookupList ([] : List (String × List Pub)) L = [] := rfl
  rw [hnil, List.nil_append]
  exact filterMap_eq_filter_of_eq _ _ (groupKey_case L) pubs

theorem nodupKeys_group (pubs : List Pub) :
    ((group_pubs_by_area pubs).map Prod.fst).Nodup := by
  exact nodupKeys_foldl_keyedStep groupKey pubs [] (by simp)

theorem group_entry_eq (pubs : List Pub) (L : String) (ps : List Pub)
    (h : (L, ps) ∈ group_pubs_by_area pubs) : ps = pubs.filter (groupPred L) := by
  rw [← lookup_group_eq_filter]
  exact (lookupList_of_mem _ _ _ (nodupKeys_group pubs) h).symm

theorem group_entry_ne_nil (pubs : List Pub) (L : String) (ps : List Pub)
    (h : (L, ps) ∈ group_pubs_by_area pubs) : ps ≠ [] := by
  exact valuesNonempty_foldl_keyedStep groupKey pubs [] (by simp) (L, ps) h

theorem mem_group_member (pubs : List Pub) (L : String) (ps : List Pub) (p : Pub)
    (h : (L, ps) ∈ group_pubs_by_area pubs) (hp : p ∈ ps) :
    p ∈ pubs ∧ normalizeLabel p.area = some L ∧ validCoords p = true := by
  rw [group_entry_eq pubs L ps h] at hp
  have h1 := List.mem_filter.mp hp
  refine ⟨h1.1, ?_, ?_⟩
  · have := h1.2
    unfold groupPred at this
    simp at this
    exact this.1
  · have := h1.2
    unfold groupPred at this
    simp at this
    exact this.2


theorem dropWhile_dropWhile {α : Type} (p : α → Bool) (l : List α) :
    (l.dropWhile p).dropWhile p = l.dropWhile p := by
  induction l with
  | nil => simp
  | cons a t ih =>
    by_cases h : p a
    · simp [List.dropWhile_cons, h, ih]
    · simp [List.dropWhile_cons, h]

theorem head_dropWhile_false {α : Type} (p : α → Bool) (l : List α) :
    ∀ a, (l.dropWhile p).head? = some a → p a = false := by
  induction l with
  | nil => simp
  | cons b t ih =>
    intro a ha
    by_cases h : p b
    · rw [List.dropWhile_cons, if_pos h] at ha
      exact ih a ha
    · rw [List.dropWhile_cons, if_neg h] at ha
      simp at ha
      rw [← ha]
      simpa using h

theorem dropWhile_eq_self_of_head {α : Type} (p : α → Bool) (l : List α)
    (h : ∀ a, l.head? = some a → p a = false) : l.dropWhile p = l := by
  cases l with
  | nil => simp
  | cons a t =>
    have := h a (by simp)
    simp [List.dropWhile_cons, this]

theorem pystripList_idem (l : List Char) : pystripList (pystripList l) = pystripList l := by
  have key : ∀ a, (((l.dropWhile pyIsSpace).reverse.dropWhile pyIsSpace).reverse).head? = some a →
      pyIsSpace a = false := by
    intro a ha
    rw [List.head?_reverse] at ha
    rcases hr : (l.dropWhile pyIsSpace).reverse.dropWhile pyIsSpace with _ | ⟨b, t⟩
    · rw [hr] at ha; simp at ha
    · have hne : (l.dropWhile pyIsSpace).reverse.dropWhile pyIsSpace ≠ [] := by rw [hr]; simp
      have hsplit := List.takeWhile_append_dropWhile (p := pyIsSpace)
        (l := (l.dropWhile pyIsSpace).reverse)
      have hlast : ((l.dropWhile pyIsSpace).reverse.dropWhile pyIsSpace).getLast? =
          ((l.dropWhile pyIsSpace).reverse).getLast? := by
        conv_rhs => rw [← hsplit]
        exact (List.getLast?_append_of_ne_nil _ hne).symm
      rw [hlast, List.getLast?_reverse] at ha
      exact head_dropWhile_false pyIsSpace l a ha
  unfold pystripList
  rw [dropWhile_eq_self_of_head pyIsSpace _ key]
  rw [List.reverse_reverse, dropWhile_dropWhile]

theorem pystrip_idem (s : String) : pystrip (pystrip s) = pystrip s := by
  unfold pystrip
  rw [show (String.mk (pystripList s.data)).data = pystripList s.data from rfl]
  rw [pystripList_idem]

theorem normalizeLabel_key (s : String) (L : String)
    (h : normalizeLabel (some s) = some L) : normalizeLabel (some L) = some L := by
  simp only [normalizeLabel] at h ⊢
  by_cases h1 : s = ""
  · simp [h1] at h
  · rw [if_neg h1] at h
    by_cases h2 : pystrip s = ""
    · simp [h2] at h
    · rw [if_neg h2] at h
      by_cases h3 : pylower (pystrip s) = "none"
      · simp [h3] at h
      · rw [if_neg h3] at h
        have hL : L = pystrip s := by
          have := Option.some.inj h
          exact this.symm
        subst hL
        rw [if_neg h2, pystrip_idem, if_neg h2, if_neg h3]



theorem foldl_maxBy_spec {α : Type} (f : α → ℕ) (l : List α) (b : α) :
    (l.foldl (fun b y => if f b < f y then y else b) b = b ∨
      l.foldl (fun b y => if f b < f y then y else b) b ∈ l) ∧
    f b ≤ f (l.foldl (fun b y => if f b < f y then y else b) b) ∧
    ∀ y ∈ l, f y ≤ f (l.foldl (fun b y => if f b < f y then y else b) b) := by
  induction l generalizing b with
  | nil => simp
  | cons y t ih =>
    rw [List.foldl_cons]
    rcases ih (if f b < f y then y else b) with ⟨hmem, hle, hall⟩
    refine ⟨?_, ?_, ?_⟩
    · rcases hmem with h | h
      · by_cases hby : f b < f y
        · right; rw [h, if_pos hby]; exact List.mem_cons_self y t
        · left; rw [h, if_neg hby]
      · right; exact List.mem_cons_of_mem y h
    · refine le_trans ?_ hle
      by_cases hby : f b < f y
      · rw [if_pos hby]; exact le_of_lt hby
      · rw [if_neg hby]
    · intro z hz
      rcases List.mem_cons.mp hz with hz | hz
      · rw [hz]
        refine le_trans ?_ hle
        by_cases hby : f b < f y
        · rw [if_pos hby]
        · rw [if_neg hby]; exact le_of_not_lt hby
      · exact hall z hz

theorem foldl_maxBy_first {α : Type} (f : α → ℕ) (l : List α) (b : α) :
    l.foldl (fun b y => if f b < f y then y else b) b = b ∨
      ∃ l₁ l₂, l = l₁ ++ l.foldl (fun b y => if f b < f y then y else b) b :: l₂ ∧
        f b < f (l.foldl (fun b y => if f b < f y then y else b) b) ∧
        ∀ y ∈ l₁, f y < f (l.foldl (fun b y => if f b < f y then y else b) b) := by
  induction l generalizing b with
  | nil => left; rfl
  | cons y t ih =>
    rw [List.foldl_cons]
    by_cases hby : f b < f y
    · rw [if_pos hby]
      rcases ih y with h | ⟨t₁, t₂, hsplit, hlt, hall⟩
      · right
        refine ⟨[], t, by simp [h], ?_, by simp⟩
        rw [h]; exact hby
      · right
        refine ⟨y :: t₁, t₂, by rw [List.cons_append, ← hsplit], lt_trans hby hlt, ?_⟩
        intro z hz
        rcases List.mem_cons.mp hz with hz | hz
        · subst hz; exact hlt
        · exact hall z hz
    · rw [if_neg hby]
      rcases ih b with h | ⟨t₁, t₂, hsplit, hlt, hall⟩
      · left; exact h
      · right
        refine ⟨y :: t₁, t₂, by rw [List.cons_append, ← hsplit], hlt, ?_⟩
        intro z hz
        rcases List.mem_cons.mp hz with hz | hz
        · subst hz; exact lt_of_le_of_lt (le_of_not_lt hby) hlt
        · exact hall z hz

theorem maxByFirst_spec {α : Type} (f : α → ℕ) (l : List α) (x : α)
    (h : maxByFirst f l = some x) :
    x ∈ l ∧ (∀ y ∈ l, f y ≤ f x) ∧
      ∃ l₁ l₂, l = l₁ ++ x :: l₂ ∧ ∀ y ∈ l₁, f y < f x := by
  cases l with
  | nil => simp [maxByFirst] at h
  | cons a t =>
    rw [maxByFirst] at h
    have hx : t.foldl (fun b y => if f b < f y then y else b) a = x := Option.some.inj h
    rcases foldl_maxBy_spec f t a with ⟨hmem, hle, hall⟩
    rw [hx] at hmem hle hall
    refine ⟨?_, ?_, ?_⟩
    · rcases hmem with hh | hh
      · rw [hh]; exact List.mem_cons_self a t
      · exact List.mem_cons_of_mem a hh
    · intro y hy
      rcases List.mem_cons.mp hy with hy | hy
      · subst hy; exact hle
      · exact hall y hy
    · rcases foldl_maxBy_first f t a with hh | ⟨t₁, t₂, hsplit, hlt, hfirst⟩
      · rw [hx] at hh
        exact ⟨[], t, by rw [← hh]; simp, by simp⟩
      · rw [hx] at hsplit hlt hfirst
        refine ⟨a :: t₁, t₂, by rw [List.cons_append, ← hsplit], ?_⟩
        intro y hy
        rcases List.mem_cons.mp hy with hy | hy
        · subst hy; exact hlt
        · exact hfirst y hy

theorem maxByFirst_none_iff {α : Type} (f : α → ℕ) (l : List α) :
    maxByFirst f l = none ↔ l = [] := by
  cases l <;> simp [maxByFirst]


theorem foldl_closest_none_iff (dist : ℚ → ℚ → ℚ → ℚ → ℚ) (pub : Pub) (ex : String)
    (l : List Pub) :
    l.foldl (closestStep dist pub ex) none = none ↔
      ∀ o ∈ l, eligiblePub pub ex o = false := by
  induction l with
  | nil => simp
  | cons o t ih =>
    rw [List.foldl_cons]
    by_cases he : eligiblePub pub ex o
    · have hstep : closestStep dist pub ex none o = some (o, distOf dist pub o) := by
        simp [closestStep, he]
      rw [hstep]
      constructor
      · intro hfold
        exfalso
        have : ∀ (c : Pub × ℚ) (l2 : List Pub),
            l2.foldl (closestStep dist pub ex) (some c) ≠ none := by
          intro c l2
          induction l2 generalizing c with
          | nil => simp
          | cons o2 t2 ih2 =>
            rw [List.foldl_cons]
            by_cases he2 : eligiblePub pub ex o2
            · by_cases hlt : distOf dist pub o2 < c.2
              · simpa [closestStep, he2, hlt] using ih2 (o2, distOf dist pub o2)
              · simpa [closestStep, he2, hlt] using ih2 c
            · simpa [closestStep, he2] using ih2 c
        exact this _ t hfold
      · intro hall
        exact absurd (hall o (List.mem_cons_self o t)) (by simpa using he)
    · have hstep : closestStep dist pub ex none o = none := by
        simp [closestStep, he]
      rw [hstep, ih]
      constructor
      · intro hall z hz
        rcases List.mem_cons.mp hz with hz | hz
        · rw [hz]; simpa using he
        · exact hall z hz
      · intro hall z hz
        exact hall z (List.mem_cons_of_mem o hz)

theorem foldl_closest_some_spec (dist : ℚ → ℚ → ℚ → ℚ → ℚ) (pub : Pub) (ex : String)
    (l : List Pub) : ∀ (c : Pub × ℚ) (m : Pub) (d : ℚ),
    l.foldl (closestStep dist pub ex) (some c) = some (m, d) →
    ((m, d) = c ∧ ∀ o ∈ l, eligiblePub pub ex o = true → d ≤ distOf dist pub o)
    ∨ (m ∈ l ∧ eligiblePub pub ex m = true ∧ d = distOf dist pub m ∧ d < c.2 ∧
       (∀ o ∈ l, eligiblePub pub ex o = true → d ≤ distOf dist pub o) ∧
       ∃ l₁ l₂, l = l₁ ++ m :: l₂ ∧
         ∀ o ∈ l₁, eligiblePub pub ex o = true → d < distOf dist pub o) := by
  induction l with
  | nil =>
    intro c m d h
    simp at h
    left
    exact ⟨h.symm, by simp⟩
  | cons o t ih =>
    intro c m d h
    rw [List.foldl_cons] at h
    by_cases he : eligiblePub pub ex o
    · by_cases hlt : distOf dist pub o < c.2
      · have hstep : closestStep dist pub ex (some c) o = some (o, distOf dist pub o) := by
          simp [closestStep, he, hlt]
        rw [hstep] at h
        rcases ih (o, distOf dist pub o) m d h with ⟨heq, hall⟩ | hspec
        · right
          have hm : m = o := congrArg Prod.fst heq
          have hd : d = distOf dist pub o := congrArg Prod.snd heq
          subst hm
          refine ⟨List.mem_cons_self m t, he, hd, by rw [hd]; exact hlt, ?_, [], t, rfl, by simp⟩
          intro z hz hze
          rcases List.mem_cons.mp hz with hz | hz
          · rw [hz, hd]
          · exact hall z hz hze
        · rcases hspec with ⟨hm, he2, hd, hdlt, hall, t₁, t₂, hsplit, hfirst⟩
          right
          refine ⟨List.mem_cons_of_mem o hm, he2, hd, lt_trans hdlt hlt, ?_,
            o :: t₁, t₂, by rw [List.cons_append, ← hsplit], ?_⟩
          · intro z hz hze
            rcases List.mem_cons.mp hz with hz | hz
            · rw [hz]; exact le_of_lt hdlt
            · exact hall z hz hze
          · intro z hz hze
            rcases List.mem_cons.mp hz with hz | hz
            · rw [hz]; exact hdlt
            · exact hfirst z hz hze
      · have hstep : closestStep dist pub ex (some c) o = some c := by
          simp [closestStep, he, hlt]
        rw [hstep] at h
        rcases ih c m d h with ⟨heq, hall⟩ | hspec
        · left
          refine ⟨heq, ?_⟩
          intro z hz hze
          rcases List.mem_cons.mp hz with hz | hz
          · rw [hz]
            have hd : d = c.2 := congrArg Prod.snd heq
            rw [hd]
            exact le_of_not_lt hlt
          · exact hall z hz hze
        · rcases hspec with ⟨hm, he2, hd, hdlt, hall, t₁, t₂, hsplit, hfirst⟩
          right
          refine ⟨List.mem_cons_of_mem o hm, he2, hd, hdlt, ?_,
            o :: t₁, t₂, by rw [List.cons_append, ← hsplit], ?_⟩
          · intro z hz hze
            rcases List.mem_cons.mp hz with hz | hz
            · rw [hz]; exact le_trans (le_of_lt hdlt) (le_of_not_lt hlt)
            · exact hall z hz hze
          · intro z hz hze
            rcases List.mem_cons.mp hz with hz | hz
            · rw [hz]; exact lt_of_lt_of_le hdlt (le_of_not_lt hlt)
            · exact hfirst z hz hze
    · have hstep : closestStep dist pub ex (some c) o = some c := by
        simp [closestStep, he]
      rw [hstep] at h
      rcases ih c m d h with ⟨heq, hall⟩ | hspec
      · left
        refine ⟨heq, ?_⟩
        intro z hz hze
        rcases List.mem_cons.mp hz with hz | hz
        · rw [hz] at hze; exact absurd hze (by simpa using he)
        · exact hall z hz hze
      · rcases hspec with ⟨hm, he2, hd, hdlt, hall, t₁, t₂, hsplit, hfirst⟩
        right
        refine ⟨List.mem_cons_of_mem o hm, he2, hd, hdlt, ?_,
          o :: t₁, t₂, by rw [List.cons_append, ← hsplit], ?_⟩
        · intro z hz hze
          rcases List.mem_cons.mp hz with hz | hz
          · rw [hz] at hze; exact absurd hze (by simpa using he)
          · exact hall z hz hze
        · intro z hz hze
          rcases List.mem_cons.mp hz with hz | hz
          · rw [hz] at hze; exact absurd hze (by simpa using he)
          · exact hfirst z hz hze

theorem find_closest_none_iff (dist : ℚ → ℚ → ℚ → ℚ → ℚ) (pub : Pub) (ex : String)
    (l : List Pub) :
    find_closest_large_area_pub dist pub l ex = none ↔
      ∀ o ∈ l, eligiblePub pub ex o = false := by
  rw [find_closest_large_area_pub]
  exact foldl_closest_none_iff dist pub ex l

theorem find_closest_spec (dist : ℚ → ℚ → ℚ → ℚ → ℚ) (pub : Pub) (ex : String)
    (l : List Pub) (m : Pub) (d : ℚ)
    (h : find_closest_large_area_pub dist pub l ex = some (m, d)) :
    m ∈ l ∧ eligiblePub pub ex m = true ∧ d = distOf dist pub m ∧
    (∀ o ∈ l, eligiblePub pub ex o = true → d ≤ distOf dist pub o) ∧
    ∃ l₁ l₂, l = l₁ ++ m :: l₂ ∧
      ∀ o ∈ l₁, eligiblePub pub ex o = true → d < distOf dist pub o := by
  rw [find_closest_large_area_pub] at h
  induction l with
  | nil => simp at h
  | cons o t ih =>
    rw [List.foldl_cons] at h
    by_cases he : eligiblePub pub ex o
    · have hstep : closestStep dist pub ex none o = some (o, distOf dist pub o) := by
        simp [closestStep, he]
      rw [hstep] at h
      rcases foldl_closest_some_spec dist pub ex t (o, distOf dist pub o) m d h with
        ⟨heq, hall⟩ | ⟨hm, he2, hd, hdlt, hall, t₁, t₂, hsplit, hfirst⟩
      · have hm : m = o := congrArg Prod.fst heq
        have hd : d = distOf dist pub o := congrArg Prod.snd heq
        subst hm
        refine ⟨List.mem_cons_self m t, he, hd, ?_, [], t, rfl, by simp⟩
        intro z hz hze
        rcases List.mem_cons.mp hz with hz | hz
        · rw [hz, hd]
        · exact hall z hz hze
      · refine ⟨List.mem_cons_of_mem o hm, he2, hd, ?_,
          o :: t₁, t₂, by rw [List.cons_append, ← hsplit], ?_⟩
        · intro z hz hze
          rcases List.mem_cons.mp hz with hz | hz
          · rw [hz]; exact le_of_lt hdlt
          · exact hall z hz hze
        · intro z hz hze
          rcases List.mem_cons.mp hz with hz | hz
          · rw [hz]; exact hdlt
          · exact hfirst z hz hze
    · have hstep : closestStep dist pub ex none o = none := by
        simp [closestStep, he]
      rw [hstep] at h
      rcases ih h with ⟨hm, he2, hd, hall, t₁, t₂, hsplit, hfirst⟩
      refine ⟨List.mem_cons_of_mem o hm, he2, hd, ?_,
        o :: t₁, t₂, by rw [List.cons_append, ← hsplit], ?_⟩
      · intro z hz hze
        rcases List.mem_cons.mp hz with hz | hz
        · rw [hz] at hze; exact absurd hze (by simpa using he)
        · exact hall z hz hze
      · intro z hz hze
        rcases List.mem_cons.mp hz with hz | hz
        · rw [hz] at hze; exact absurd hze (by simpa using he)
        · exact hfirst z hz hze



theorem collectVotes_fst (dist : ℚ → ℚ → ℚ → ℚ → ℚ) (allLarge : List Pub) (S : String)
    (ps : List Pub) :
    (collectVotes dist allLarge S ps).1 =
      ps.foldl (keyedStep (voteKey dist allLarge S)) [] := by
  have aux : ∀ (l : List Pub) (acc : List (String × List Vote) × List SkipEntry),
      (l.foldl (fun acc p =>
        match voteKey dist allLarge S p with
        | some kv => (upsertAppend acc.1 kv.1 kv.2, acc.2)
        | none => (acc.1, acc.2 ++ [SkipEntry.record S p SkipReason.noCandidate])) acc).1 =
      l.foldl (keyedStep (voteKey dist allLarge S)) acc.1 := by
    intro l
    induction l with
    | nil => intro acc; rfl
    | cons p t ih =>
      intro acc
      rw [List.foldl_cons, List.foldl_cons]
      cases hv : voteKey dist allLarge S p with
      | none => rw [ih]; simp [keyedStep, hv]
      | some kv => rw [ih]; simp [keyedStep, hv]
  exact aux ps ([], [])

theorem collectVotes_snd_records (dist : ℚ → ℚ → ℚ → ℚ → ℚ) (allLarge : List Pub) (S : String)
    (ps : List Pub) :
    ∀ e ∈ (collectVotes dist allLarge S ps).2, ∃ p r, e = SkipEntry.record S p r := by
  have aux : ∀ (l : List Pub) (acc : List (String × List Vote) × List SkipEntry),
      (∀ e ∈ acc.2, ∃ p r, e = SkipEntry.record S p r) →
      ∀ e ∈ (l.foldl (fun acc p =>
        match voteKey dist allLarge S p with
        | some kv => (upsertAppend acc.1 kv.1 kv.2, acc.2)
        | none => (acc.1, acc.2 ++ [SkipEntry.record S p SkipReason.noCandidate])) acc).2,
        ∃ p r, e = SkipEntry.record S p r := by
    intro l
    induction l with
    | nil => intro acc hacc; exact hacc
    | cons p t ih =>
      intro acc hacc
      rw [List.foldl_cons]
      cases hv : voteKey dist allLarge S p with
      | none =>
        refine ih _ ?_
        intro e he
        simp only [List.mem_append] at he
        rcases he with he | he
        · exact hacc e he
        · simp at he
          exact ⟨p, SkipReason.noCandidate, he⟩
      | some kv =>
        refine ih _ ?_
        intro e he
        exact hacc e he
  intro e he
  exact aux ps ([], []) (by simp) e he

theorem lookup_votes (dist : ℚ → ℚ → ℚ → ℚ → ℚ) (allLarge : List Pub) (S : String)
    (ps : List Pub) (t : String) :
    lookupList (collectVotes dist allLarge S ps).1 t =
      ps.filterMap (fun p => (voteKey dist allLarge S p).bind
        (fun kv => if kv.1 = t then some kv.2 else none)) := by
  rw [collectVotes_fst, lookupList_foldl_keyedStep]
  rfl

theorem nodupKeys_votes (dist : ℚ → ℚ → ℚ → ℚ → ℚ) (allLarge : List Pub) (S : String)
    (ps : List Pub) :
    (((collectVotes dist allLarge S ps).1).map Prod.fst).Nodup := by
  rw [collectVotes_fst]
  exact nodupKeys_foldl_keyedStep _ ps [] (by simp)

theorem valuesNonempty_votes (dist : ℚ → ℚ → ℚ → ℚ → ℚ) (allLarge : List Pub) (S : String)
    (ps : List Pub) :
    ∀ e ∈ (collectVotes dist allLarge S ps).1, e.2 ≠ [] := by
  rw [collectVotes_fst]
  exact valuesNonempty_foldl_keyedStep _ ps [] (by simp)

theorem processSmallArea_merge_spec (dist : ℚ → ℚ → ℚ → ℚ → ℚ)
    (groups : List (String × List Pub)) (allLarge : List Pub) (mr : Option ℚ)
    (S : String) (ps : List Pub) (m : MergeDecision)
    (h : (processSmallArea dist groups allLarge mr (S, ps)).1 = some m) :
    ∃ t vs, maxByFirst (fun kv => kv.2.length) (collectVotes dist allLarge S ps).1 =
        some (t, vs) ∧
      m = ⟨S, t, get_area_borough t groups, vs.map Vote.pub, avgDistance vs,
        listMax (vs.map Vote.distance), vs.length⟩ ∧
      ∀ R, mr = some R → ¬ R < listMax (vs.map Vote.distance) := by
  rcases hmax : maxByFirst (fun kv => kv.2.length) (collectVotes dist allLarge S ps).1 with
    _ | ⟨t, vs⟩
  · simp only [processSmallArea, hmax] at h
    simp at h
  · refine ⟨t, vs, hmax, ?_⟩
    cases mr with
    | none =>
      simp only [processSmallArea, hmax] at h
      simp at h
      exact ⟨h.symm, by simp⟩
    | some R =>
      by_cases hR : R < listMax (vs.map Vote.distance)
      · simp only [processSmallArea, hmax, if_pos hR] at h
        simp at h
      · simp only [processSmallArea, hmax, if_neg hR] at h
        simp at h
        refine ⟨h.symm, ?_⟩
        intro R2 hR2
        rw [Option.some.inj hR2] at hR
        exact hR

theorem processSmallArea_range_cases (dist : ℚ → ℚ → ℚ → ℚ → ℚ)
    (groups : List (String × List Pub)) (allLarge : List Pub) (R : ℚ)
    (S : String) (ps : List Pub) (t : String) (vs : List Vote)
    (hmax : maxByFirst (fun kv => kv.2.length) (collectVotes dist allLarge S ps).1 =
      some (t, vs)) :
    ((processSmallArea dist groups allLarge (some R) (S, ps)).1 = none ↔
        R < listMax (vs.map Vote.distance))
    ∧ (R < listMax (vs.map Vote.distance) →
        (processSmallArea dist groups allLarge (some R) (S, ps)).2 =
          (collectVotes dist allLarge S ps).2 ++
            [SkipEntry.cluster S ps
              (SkipReason.rangeExceeded (listMax (vs.map Vote.distance)) R)])
    ∧ (¬ R < listMax (vs.map Vote.distance) →
        (processSmallArea dist groups allLarge (some R) (S, ps)).1 =
          some ⟨S, t, get_area_borough t groups, vs.map Vote.pub, avgDistance vs,
            listMax (vs.map Vote.distance), vs.length⟩) := by
  by_cases hR : R < listMax (vs.map Vote.distance)
  · refine ⟨?_, ?_, ?_⟩
    · simp only [processSmallArea, hmax]
      rw [if_pos hR]
      simp [hR]
    · intro _
      simp only [processSmallArea, hmax]
      rw [if_pos hR]
    · intro h; exact absurd hR h
  · refine ⟨?_, ?_, ?_⟩
    · simp only [processSmallArea, hmax]
      rw [if_neg hR]
      simp [hR]
    · intro h; exact absurd h hR
    · intro _
      simp only [processSmallArea, hmax]
      rw [if_neg hR]

theorem processSmallArea_noRange_accept (dist : ℚ → ℚ → ℚ → ℚ → ℚ)
    (groups : List (String × List Pub)) (allLarge : List Pub)
    (S : String) (ps : List Pub) (t : String) (vs : List Vote)
    (hmax : maxByFirst (fun kv => kv.2.length) (collectVotes dist allLarge S ps).1 =
      some (t, vs)) :
    (processSmallArea dist groups allLarge none (S, ps)).1 =
      some ⟨S, t, get_area_borough t groups, vs.map Vote.pub, avgDistance vs,
        listMax (vs.map Vote.distance), vs.length⟩ := by
  simp only [processSmallArea, hmax]

theorem processSmallArea_noTarget (dist : ℚ → ℚ → ℚ → ℚ → ℚ)
    (groups : List (String × List Pub)) (allLarge : List Pub) (mr : Option ℚ)
    (S : String) (ps : List Pub)
    (hmax : (collectVotes dist allLarge S ps).1 = []) :
    (processSmallArea dist groups allLarge mr (S, ps)).1 = none := by
  simp only [processSmallArea, hmax, maxByFirst]



theorem run_foldl_eq (dist : ℚ → ℚ → ℚ → ℚ → ℚ) (groups : List (String × List Pub))
    (allLarge : List Pub) (mr : Option ℚ) (l : List (String × List Pub)) :
    ∀ acc : RunResult,
    l.foldl (fun acc g =>
      let r := processSmallArea dist groups allLarge mr g
      RunResult.mk (acc.merges ++ r.1.toList) (acc.skipped ++ r.2)) acc =
    ⟨acc.merges ++ l.filterMap (fun g => (processSmallArea dist groups allLarge mr g).1),
     acc.skipped ++ (l.map (fun g => (processSmallArea dist groups allLarge mr g).2)).flatten⟩ := by
  induction l with
  | nil => intro acc; simp
  | cons g t ih =>
    intro acc
    rw [List.foldl_cons, ih]
    rw [List.filterMap_cons, List.map_cons, List.flatten_cons]
    cases hpsa : (processSmallArea dist groups allLarge mr g).1 with
    | none => simp [hpsa]
    | some m => simp [hpsa]

theorem merge_small_areas_eq (dist : ℚ → ℚ → ℚ → ℚ → ℚ) (pubs : List Pub) (minp : ℕ)
    (mr : Option ℚ) (h : ¬ (smallAreas pubs minp = [] ∨ largeAreas pubs minp = [])) :
    merge_small_areas dist pubs minp mr =
      ⟨(smallAreas pubs minp).filterMap (fun g =>
          (processSmallArea dist (group_pubs_by_area pubs) (allLargePubs pubs minp) mr g).1),
        ((smallAreas pubs minp).map (fun g =>
          (processSmallArea dist (group_pubs_by_area pubs) (allLargePubs pubs minp) mr g).2)).flatten⟩ := by
  rw [merge_small_areas, if_neg h]
  rw [run_foldl_eq]
  simp

theorem mem_run_merges (dist : ℚ → ℚ → ℚ → ℚ → ℚ) (pubs : List Pub) (minp : ℕ)
    (mr : Option ℚ) (m : MergeDecision)
    (hm : m ∈ (merge_small_areas dist pubs minp mr).merges) :
    ∃ S ps, (S, ps) ∈ smallAreas pubs minp ∧
      (processSmallArea dist (group_pubs_by_area pubs) (allLargePubs pubs minp) mr
        (S, ps)).1 = some m := by
  by_cases h : smallAreas pubs minp = [] ∨ largeAreas pubs minp = []
  · rw [merge_small_areas, if_pos h] at hm
    simp at hm
  · rw [merge_small_areas_eq dist pubs minp mr h] at hm
    rcases List.mem_filterMap.mp hm with ⟨g, hg, hpsa⟩
    exact ⟨g.1, g.2, hg, hpsa⟩

theorem mem_run_skipped (dist : ℚ → ℚ → ℚ → ℚ → ℚ) (pubs : List Pub) (minp : ℕ)
    (mr : Option ℚ) (e : SkipEntry)
    (he : e ∈ (merge_small_areas dist pubs minp mr).skipped) :
    ∃ S ps, (S, ps) ∈ smallAreas pubs minp ∧
      e ∈ (processSmallArea dist (group_pubs_by_area pubs) (allLargePubs pubs minp) mr
        (S, ps)).2 := by
  by_cases h : smallAreas pubs minp = [] ∨ largeAreas pubs minp = []
  · rw [merge_small_areas, if_pos h] at he
    simp at he
  · rw [merge_small_areas_eq dist pubs minp mr h] at he
    simp only [List.mem_flatten, List.mem_map] at he
    rcases he with ⟨l2, ⟨g, hg, hl2⟩, he⟩
    rw [← hl2] at he
    exact ⟨g.1, g.2, hg, he⟩

theorem smallAreas_mem (pubs : List Pub) (minp : ℕ) (S : String) (ps : List Pub) :
    (S, ps) ∈ smallAreas pubs minp ↔
      (S, ps) ∈ group_pubs_by_area pubs ∧ ps.length < minp := by
  rw [smallAreas, List.mem_filter]
  simp

theorem largeAreas_mem (pubs : List Pub) (minp : ℕ) (A : String) (qs : List Pub) :
    (A, qs) ∈ largeAreas pubs minp ↔
      (A, qs) ∈ group_pubs_by_area pubs ∧ minp ≤ qs.length := by
  rw [largeAreas, List.mem_filter]
  simp [not_lt]

theorem mem_allLargePubs (pubs : List Pub) (minp : ℕ) (o : Pub) :
    o ∈ allLargePubs pubs minp ↔
      ∃ A qs, (A, qs) ∈ largeAreas pubs minp ∧ o ∈ qs := by
  rw [allLargePubs]
  simp only [List.mem_flatten, List.mem_map]
  constructor
  · rintro ⟨l2, ⟨g, hg, hl2⟩, ho⟩
    rw [← hl2] at ho
    exact ⟨g.1, g.2, hg, ho⟩
  · rintro ⟨A, qs, hg, ho⟩
    exact ⟨qs, ⟨(A, qs), hg, rfl⟩, ho⟩



theorem normalizeLabel_strip (s L : String) (h : normalizeLabel (some s) = some L) :
    pystrip s = L ∧ s ≠ "" := by
  simp only [normalizeLabel] at h
  by_cases h1 : s = ""
  · simp [h1] at h
  · rw [if_neg h1] at h
    by_cases h2 : pystrip s = ""
    · simp [h2] at h
    · rw [if_neg h2] at h
      by_cases h3 : pylower (pystrip s) = "none"
      · simp [h3] at h
      · rw [if_neg h3] at h
        exact ⟨Option.some.inj h, h1⟩

theorem normalizeLabel_getD_strip (v : Option String) (L : String)
    (h : normalizeLabel v = some L) : pystrip (v.getD "") = L := by
  cases v with
  | none => simp [normalizeLabel] at h
  | some s => exact (normalizeLabel_strip s L h).1

theorem votes_members (dist : ℚ → ℚ → ℚ → ℚ → ℚ) (allLarge : List Pub) (S : String)
    (ps : List Pub) (t : String) :
    (lookupList (collectVotes dist allLarge S ps).1 t).map Vote.pub =
      ps.filterMap (fun p =>
        match find_closest_large_area_pub dist p allLarge S with
        | some cpd => if pystrip (cpd.1.area.getD "") = t then some p else none
        | none => none) := by
  rw [lookup_votes, List.map_filterMap]
  apply List.filterMap_congr
  intro p _
  cases hf : find_closest_large_area_pub dist p allLarge S with
  | none => simp [voteKey, hf]
  | some cpd =>
    by_cases ht : pystrip (cpd.1.area.getD "") = t
    · simp [voteKey, hf, ht]
    · simp [voteKey, hf, ht]

theorem vote_mem_elim (dist : ℚ → ℚ → ℚ → ℚ → ℚ) (allLarge : List Pub) (S : String)
    (ps : List Pub) (t : String) (v : Vote)
    (hv : v ∈ lookupList (collectVotes dist allLarge S ps).1 t) :
    v.pub ∈ ps ∧ ∃ cp, find_closest_large_area_pub dist v.pub allLarge S =
      some (cp, v.distance) ∧ pystrip (cp.area.getD "") = t := by
  rw [lookup_votes] at hv
  rcases List.mem_filterMap.mp hv with ⟨p, hp, hkey⟩
  cases hf : find_closest_large_area_pub dist p allLarge S with
  | none => simp [voteKey, hf] at hkey
  | some cpd =>
    by_cases ht : pystrip (cpd.1.area.getD "") = t
    · simp [voteKey, hf, ht] at hkey
      rw [← hkey]
      exact ⟨hp, cpd.1, by rw [hf], ht⟩
    · simp [voteKey, hf, ht] at hkey

theorem run_merge_members (dist : ℚ → ℚ → ℚ → ℚ → ℚ) (pubs : List Pub) (minp : ℕ)
    (mr : Option ℚ) (m : MergeDecision)
    (hm : m ∈ (merge_small_areas dist pubs minp mr).merges) :
    m.count = m.pubs.length ∧
    ∀ q ∈ m.pubs, q ∈ pubs ∧ normalizeLabel q.area = some m.from_area ∧
      validCoords q = true := by
  rcases mem_run_merges dist pubs minp mr m hm with ⟨S, ps, hsmall, hpsa⟩
  rcases processSmallArea_merge_spec dist _ _ mr S ps m hpsa with ⟨t, vs, hmax, hmeq, _⟩
  have hvs : lookupList (collectVotes dist (allLargePubs pubs minp) S ps).1 t = vs := by
    rcases maxByFirst_spec _ _ _ hmax with ⟨hmem, _, _⟩
    exact lookupList_of_mem _ t vs (nodupKeys_votes dist (allLargePubs pubs minp) S ps) hmem
  have hfrom : m.from_area = S := by rw [hmeq]
  have hpubs : m.pubs = vs.map Vote.pub := by rw [hmeq]
  have hcount : m.count = vs.length := by rw [hmeq]
  constructor
  · rw [hcount, hpubs, List.length_map]
  · intro q hq
    rw [hpubs] at hq
    rcases List.mem_map.mp hq with ⟨v, hvmem, hvq⟩
    have := vote_mem_elim dist (allLargePubs pubs minp) S ps t v (by rw [hvs]; exact hvmem)
    have hqps : q ∈ ps := by rw [← hvq]; exact this.1
    have hgrp := (smallAreas_mem pubs minp S ps).mp hsmall
    have hprops := mem_group_member pubs S ps q hgrp.1 hqps
    exact ⟨hprops.1, by rw [hfrom]; exact hprops.2.1, hprops.2.2⟩



theorem eligiblePub_iff (pub : Pub) (ex : String) (o : Pub) :
    eligiblePub pub ex o = true ↔
      o.id ≠ pub.id ∧ pystrip (o.area.getD "") ≠ ex ∧
        truthyCoord o.lat = true ∧ truthyCoord o.lon = true := by
  simp [eligiblePub, and_assoc]

theorem run_merge_shape (dist : ℚ → ℚ → ℚ → ℚ → ℚ) (pubs : List Pub) (minp : ℕ)
    (mr : Option ℚ) (m : MergeDecision)
    (hm : m ∈ (merge_small_areas dist pubs minp mr).merges) :
    m.to_area ≠ m.from_area ∧
    (∃ qs, (m.to_area, qs) ∈ group_pubs_by_area pubs ∧ minp ≤ qs.length) ∧
    m.pubs ≠ [] := by
  rcases mem_run_merges dist pubs minp mr m hm with ⟨S, ps, hsmall, hpsa⟩
  rcases processSmallArea_merge_spec dist _ _ mr S ps m hpsa with ⟨t, vs, hmax, hmeq, _⟩
  have hvs : lookupList (collectVotes dist (allLargePubs pubs minp) S ps).1 t = vs := by
    rcases maxByFirst_spec _ _ _ hmax with ⟨hmem, _, _⟩
    exact lookupList_of_mem _ t vs (nodupKeys_votes dist (allLargePubs pubs minp) S ps) hmem
  have hvsne : vs ≠ [] := by
    rcases maxByFirst_spec _ _ _ hmax with ⟨hmem, _, _⟩
    exact valuesNonempty_votes dist (allLargePubs pubs minp) S ps (t, vs) hmem
  obtain ⟨v, hv⟩ := List.exists_mem_of_ne_nil vs hvsne
  rcases vote_mem_elim dist (allLargePubs pubs minp) S ps t v (by rw [hvs]; exact hv) with
    ⟨hvp, cp, hfc, hstrip⟩
  rcases find_closest_spec dist v.pub S (allLargePubs pubs minp) cp v.distance hfc with
    ⟨hcpmem, helig, _, _, _⟩
  have hne : t ≠ S := by
    rw [← hstrip]
    exact ((eligiblePub_iff v.pub S cp).mp helig).2.1
  rcases (mem_allLargePubs pubs minp cp).mp hcpmem with ⟨A, qs, hlg, hcpqs⟩
  have hlgm := (largeAreas_mem pubs minp A qs).mp hlg
  have hA := mem_group_member pubs A qs cp hlgm.1 hcpqs
  have htA : t = A := by rw [← hstrip]; exact normalizeLabel_getD_strip cp.area A hA.2.1
  have hto : m.to_area = t := by rw [hmeq]
  have hfrom : m.from_area = S := by rw [hmeq]
  have hpubs : m.pubs = vs.map Vote.pub := by rw [hmeq]
  refine ⟨?_, ?_, ?_⟩
  · rw [hto, hfrom]; exact hne
  · exact ⟨qs, by rw [hto, htA]; exact hlgm.1, hlgm.2⟩
  · rw [hpubs]
    simpa using hvsne

/-- C10 (confirmed): every merge decision's destination label differs from
its source label, the destination is the label of a major cluster (at
least `min_pubs` coordinate-valid members), and the member list is
non-empty. -/
theorem c10_invariants (dist : ℚ → ℚ → ℚ → ℚ → ℚ) (pubs : List Pub) (minp : ℕ)
    (mr : Option ℚ) (m : MergeDecision)
    (hm : m ∈ (merge_small_areas dist pubs minp mr).merges) :
    m.to_area ≠ m.from_area ∧
    (∃ qs, (m.to_area, qs) ∈ group_pubs_by_area pubs ∧ minp ≤ qs.length) ∧
    m.pubs ≠ [] :=
  run_merge_shape dist pubs minp mr m hm

/-- C1 (amended): an accepted merge decision's member list contains exactly
those coordinate-valid members of the minor cluster whose own nearest-major
candidate lies in the chosen destination; members whose candidate lies in a
different destination are omitted. Applying the decision rewrites each
listed member's area to the chosen destination label. -/
theorem c1_amended_members (dist : ℚ → ℚ → ℚ → ℚ → ℚ) (pubs : List Pub) (minp : ℕ)
    (mr : Option ℚ) (m : MergeDecision)
    (hm : m ∈ (merge_small_areas dist pubs minp mr).merges) :
    ∃ ps, (m.from_area, ps) ∈ group_pubs_by_area pubs ∧ ps.length < minp ∧
      m.pubs = ps.filterMap (fun p =>
        match find_closest_large_area_pub dist p (allLargePubs pubs minp) m.from_area with
        | some cpd => if pystrip (cpd.1.area.getD "") = m.to_area then some p else none
        | none => none) ∧
      ∀ p ∈ m.pubs,
        (update_pub_area_and_borough p m.to_area m.to_borough).area = some m.to_area := by
  rcases mem_run_merges dist pubs minp mr m hm with ⟨S, ps, hsmall, hpsa⟩
  rcases processSmallArea_merge_spec dist _ _ mr S ps m hpsa with ⟨t, vs, hmax, hmeq, _⟩
  have hvs : lookupList (collectVotes dist (allLargePubs pubs minp) S ps).1 t = vs := by
    rcases maxByFirst_spec _ _ _ hmax with ⟨hmem, _, _⟩
    exact lookupList_of_mem _ t vs (nodupKeys_votes dist (allLargePubs pubs minp) S ps) hmem
  have hto : m.to_area = t := by rw [hmeq]
  have hfrom : m.from_area = S := by rw [hmeq]
  have hpubs : m.pubs = vs.map Vote.pub := by rw [hmeq]
  have hgrp := (smallAreas_mem pubs minp S ps).mp hsmall
  refine ⟨ps, by rw [hfrom]; exact hgrp.1, hgrp.2, ?_, ?_⟩
  · rw [hpubs, ← hvs, hfrom, hto]
    exact votes_members dist (allLargePubs pubs minp) S ps t
  · intro p _
    rfl

/-- C2 (amended): the chosen destination label has the most member votes,
and a tie on vote count is broken by the order in which destination labels
were first encountered while iterating the cluster's members (the earliest
vote-map key attaining the maximal count) — average distance and
lexicographic order play no role. -/
theorem c2_amended_tiebreak (dist : ℚ → ℚ → ℚ → ℚ → ℚ)
    (groups : List (String × List Pub)) (allLarge : List Pub) (mr : Option ℚ)
    (S : String) (ps : List Pub) (m : MergeDecision)
    (h : (processSmallArea dist groups allLarge mr (S, ps)).1 = some m) :
    ∃ vs vl₁ vl₂,
      (collectVotes dist allLarge S ps).1 = vl₁ ++ (m.to_area, vs) :: vl₂ ∧
      m.pubs = vs.map Vote.pub ∧
      (∀ kv ∈ (collectVotes dist allLarge S ps).1, kv.2.length ≤ vs.length) ∧
      (∀ kv ∈ vl₁, kv.2.length < vs.length) := by
  rcases processSmallArea_merge_spec dist groups allLarge mr S ps m h with
    ⟨t, vs, hmax, hmeq, _⟩
  rcases maxByFirst_spec _ _ _ hmax with ⟨hmem, hbound, l₁, l₂, hsplit, hfirst⟩
  have hto : m.to_area = t := by rw [hmeq]
  have hpubs : m.pubs = vs.map Vote.pub := by rw [hmeq]
  exact ⟨vs, l₁, l₂, by rw [hto]; exact hsplit, hpubs, hbound, hfirst⟩

/-- C7 (amended): the summary accounts only for planned records: the
total-pubs-to-update figure equals the summed member-list lengths, and
every planned member is a coordinate- and label-valid input record.
Records lacking coordinates or labels appear in no summary category (see
the counterexample), so the reported counts need not sum to the total
input record count. -/
theorem c7_amended_accounting (dist : ℚ → ℚ → ℚ → ℚ → ℚ) (pubs : List Pub) (minp : ℕ)
    (mr : Option ℚ) :
    (((merge_small_areas dist pubs minp mr).merges.map MergeDecision.count).sum =
      ((merge_small_areas dist pubs minp mr).merges.map (fun m => m.pubs.length)).sum) ∧
    ∀ m ∈ (merge_small_areas dist pubs minp mr).merges,
      m.count = m.pubs.length ∧
      ∀ q ∈ m.pubs, q ∈ pubs ∧ normalizeLabel q.area = some m.from_area ∧
        validCoords q = true := by
  constructor
  · apply congrArg List.sum
    apply List.map_congr_left
    intro m hm
    exact (run_merge_members dist pubs minp mr m hm).1
  · intro m hm
    exact run_merge_members dist pubs minp mr m hm


theorem nodupKeys_smallAreas (pubs : List Pub) (minp : ℕ) :
    ((smallAreas pubs minp).map Prod.fst).Nodup := by
  refine List.Nodup.sublist ?_ (nodupKeys_group pubs)
  exact List.Sublist.map Prod.fst (List.filter_sublist _)

theorem smallAreas_key_inj (pubs : List Pub) (minp : ℕ) (S : String) (ps ps2 : List Pub)
    (h1 : (S, ps) ∈ smallAreas pubs minp) (h2 : (S, ps2) ∈ smallAreas pubs minp) :
    ps = ps2 := by
  have e1 := lookupList_of_mem _ S ps (nodupKeys_smallAreas pubs minp) h1
  have e2 := lookupList_of_mem _ S ps2 (nodupKeys_smallAreas pubs minp) h2
  rw [← e1, ← e2]

theorem psa_cluster_skip_elim (dist : ℚ → ℚ → ℚ → ℚ → ℚ)
    (groups : List (String × List Pub)) (al : List Pub) (mr : Option ℚ)
    (Sg : String) (psg : List Pub) (S : String) (ps : List Pub) (d R : ℚ)
    (he : SkipEntry.cluster S ps (SkipReason.rangeExceeded d R) ∈
      (processSmallArea dist groups al mr (Sg, psg)).2) :
    Sg = S ∧ psg = ps ∧ (processSmallArea dist groups al mr (Sg, psg)).1 = none := by
  rcases hmax : maxByFirst (fun kv => kv.2.length) (collectVotes dist al Sg psg).1 with
    _ | ⟨t, vs⟩
  · simp only [processSmallArea, hmax, List.mem_append] at he
    rcases he with he | he
    · rcases collectVotes_snd_records dist al Sg psg _ he with ⟨p, r, hpr⟩
      simp at hpr
    · simp at he
  · cases mr with
    | none =>
      simp only [processSmallArea, hmax] at he
      rcases collectVotes_snd_records dist al Sg psg _ he with ⟨p, r, hpr⟩
      simp at hpr
    | some R2 =>
      by_cases hR2 : R2 < listMax (vs.map Vote.distance)
      · simp only [processSmallArea, hmax, if_pos hR2, List.mem_append] at he
        rcases he with he | he
        · rcases collectVotes_snd_records dist al Sg psg _ he with ⟨p, r, hpr⟩
          simp at hpr
        · simp at he
          refine ⟨he.1.symm, he.2.1.symm, ?_⟩
          simp only [processSmallArea, hmax, if_pos hR2]
      · simp only [processSmallArea, hmax, if_neg hR2] at he
        rcases collectVotes_snd_records dist al Sg psg _ he with ⟨p, r, hpr⟩
        simp at hpr

theorem applyMerges_of_no_match (merges : List MergeDecision) (p : Pub)
    (h : ∀ m ∈ merges, ∀ q ∈ m.pubs, q.id ≠ p.id) : applyMerges merges p = p := by
  induction merges with
  | nil => rfl
  | cons m t ih =>
    rw [applyMerges, List.foldl_cons]
    have hany : m.pubs.any (fun x => x.id == p.id) = false := by
      rw [List.any_eq_false]
      intro q hq
      simpa using h m (List.mem_cons_self m t) q hq
    rw [hany]
    simp only [Bool.false_eq_true, if_false]
    exact ih (fun m2 hm2 => h m2 (List.mem_cons_of_mem m hm2))


/-- C4 (confirmed): with a configured range, a minor cluster's merge is
rejected iff the maximum distance over the chosen destination's vote group
(the cluster's voting members aggregated for the chosen destination)
exceeds the range; an accepted decision always carries that whole vote
group (no per-member filtering); and a range-rejected cluster is reported
as skipped with a range-exceeded reason while the apply phase leaves every
one of its members unchanged. -/
theorem c4_all_or_nothing :
    (∀ (dist : ℚ → ℚ → ℚ → ℚ → ℚ) (groups : List (String × List Pub)) (allLarge : List Pub)
      (R : ℚ) (S : String) (ps : List Pub) (t : String) (vs : List Vote),
      maxByFirst (fun kv => kv.2.length) (collectVotes dist allLarge S ps).1 = some (t, vs) →
      (((processSmallArea dist groups allLarge (some R) (S, ps)).1 = none ↔
          R < listMax (vs.map Vote.distance)) ∧
        (R < listMax (vs.map Vote.distance) →
          SkipEntry.cluster S ps (SkipReason.rangeExceeded (listMax (vs.map Vote.distance)) R)
            ∈ (processSmallArea dist groups allLarge (some R) (S, ps)).2) ∧
        (¬ R < listMax (vs.map Vote.distance) →
          ∃ m, (processSmallArea dist groups allLarge (some R) (S, ps)).1 = some m ∧
            m.pubs = vs.map Vote.pub)))
    ∧ (∀ (dist : ℚ → ℚ → ℚ → ℚ → ℚ) (pubs : List Pub) (minp : ℕ) (R d : ℚ)
        (S : String) (ps : List Pub),
      (pubs.map Pub.id).Nodup →
      SkipEntry.cluster S ps (SkipReason.rangeExceeded d R) ∈
        (merge_small_areas dist pubs minp (some R)).skipped →
      ∀ p ∈ ps, applyMerges (merge_small_areas dist pubs minp (some R)).merges p = p) := by
  constructor
  · intro dist groups allLarge R S ps t vs hmax
    rcases processSmallArea_range_cases dist groups allLarge R S ps t vs hmax with
      ⟨hiff, hskip, haccept⟩
    refine ⟨hiff, ?_, ?_⟩
    · intro hR
      rw [hskip hR]
      simp
    · intro hR
      exact ⟨_, haccept hR, by simp⟩
  · intro dist pubs minp R d S ps hids he p hp
    rcases mem_run_skipped dist pubs minp (some R) _ he with ⟨Sg, psg, hsmallg, heg⟩
    rcases psa_cluster_skip_elim dist _ _ (some R) Sg psg S ps d R heg with ⟨hS, hps, hnone⟩
    rw [← hps] at hp
    have hgrp := (smallAreas_mem pubs minp Sg psg).mp hsmallg
    have hpmem := mem_group_member pubs Sg psg p hgrp.1 hp
    apply applyMerges_of_no_match
    intro m hm q hq
    intro hid
    have hq2 := (run_merge_members dist pubs minp (some R) m hm).2 q hq
    have hpq : q = p := List.inj_on_of_nodup_map hids hq2.1 hpmem.1 hid
    rcases mem_run_merges dist pubs minp (some R) m hm with ⟨S2, ps2, hsmall2, hpsa2⟩
    have hfrom : m.from_area = S2 := by
      rcases processSmallArea_merge_spec dist _ _ (some R) S2 ps2 m hpsa2 with
        ⟨t2, vs2, _, hmeq2, _⟩
      rw [hmeq2]
    have hS2 : S2 = Sg := by
      have h1 : normalizeLabel q.area = some m.from_area := hq2.2.1
      rw [hpq, hpmem.2.1] at h1
      exact ((Option.some.inj h1).trans hfrom).symm
    rw [hS2] at hsmall2
    have hps2 : ps2 = psg := smallAreas_key_inj pubs minp Sg ps2 psg hsmall2 hsmallg
    rw [hS2, hps2] at hpsa2
    rw [hpsa2] at hnone
    exact Option.noConfusion hnone


/-- C6 (amended): a record with a usable label is included in its area's
cluster exactly when both coordinates are truthy in the Python sense —
present and nonzero; in particular a record whose latitude or longitude is
the numeric value 0 is excluded from clustering. -/
theorem c6_amended_truthy_coords (pubs : List Pub) (p : Pub) (L : String)
    (hp : p ∈ pubs) (hL : normalizeLabel p.area = some L) :
    p ∈ lookupList (group_pubs_by_area pubs) L ↔ validCoords p = true := by
  rw [lookup_group_eq_filter, List.mem_filter]
  constructor
  · intro h
    have h2 := h.2
    unfold groupPred at h2
    simp at h2
    exact h2.2
  · intro h
    refine ⟨hp, ?_⟩
    unfold groupPred
    simp [hL, h]

theorem lookupCount_bumpCount (cs : List (String × ℕ)) (k L : String) :
    lookupCount (bumpCount cs k) L =
      if L = k then lookupCount cs L + 1 else lookupCount cs L := by
  induction cs with
  | nil =>
    by_cases h : L = k <;> simp [bumpCount, lookupCount, h]
    · intro h2; exact absurd h2.symm h
  | cons c rest ih =>
    by_cases hck : c.1 = k
    · by_cases hcL : c.1 = L
      · simp [bumpCount, hck, lookupCount, hcL, hcL ▸ hck]
      · have h1 : ¬ L = k := fun h => hcL (h ▸ hck)
        have h2 : ¬ k = L := fun h => h1 h.symm
        simp [bumpCount, hck, lookupCount, hcL, h1, h2]
    · by_cases hcL : c.1 = L
      · have h1 : ¬ L = k := fun h => hck (hcL.trans h)
        simp [bumpCount, hck, lookupCount, hcL, h1]
      · simp [bumpCount, hck, lookupCount, hcL, ih]

theorem lookupCount_foldl_bump (vals : List String) (cs : List (String × ℕ)) (L : String) :
    lookupCount (vals.foldl bumpCount cs) L = lookupCount cs L + vals.count L := by
  induction vals generalizing cs with
  | nil => simp
  | cons v t ih =>
    rw [List.foldl_cons, ih, lookupCount_bumpCount]
    by_cases h : L = v
    · rw [if_pos h, List.count_cons]
      have : (v == L) = true := by simp [h.symm]
      simp [this]
      omega
    · rw [if_neg h, List.count_cons]
      have : (v == L) = false := by simp; exact fun h2 => h (h2.symm)
      simp [this]

theorem keys_bumpCount (cs : List (String × ℕ)) (k : String) :
    (bumpCount cs k).map Prod.fst =
      if k ∈ cs.map Prod.fst then cs.map Prod.fst else cs.map Prod.fst ++ [k] := by
  induction cs with
  | nil => simp [bumpCount]
  | cons c rest ih =>
    by_cases hck : c.1 = k
    · simp [bumpCount, hck]
    · have hkc : ¬ k = c.1 := fun h => hck h.symm
      by_cases hmem : k ∈ rest.map Prod.fst
      · simp [bumpCount, hck, ih, hmem, hkc]
      · simp [bumpCount, hck, ih, hmem, hkc]

theorem nodupKeys_bumpCount (cs : List (String × ℕ)) (k : String)
    (h : (cs.map Prod.fst).Nodup) : ((bumpCount cs k).map Prod.fst).Nodup := by
  rw [keys_bumpCount]
  by_cases hmem : k ∈ cs.map Prod.fst
  · simpa [hmem]
  · simpa [hmem] using List.Nodup.append h (List.nodup_singleton k) (by simpa using hmem)

theorem nodupKeys_foldl_bump (vals : List String) (cs : List (String × ℕ))
    (h : (cs.map Prod.fst).Nodup) : ((vals.foldl bumpCount cs).map Prod.fst).Nodup := by
  induction vals generalizing cs with
  | nil => simpa
  | cons v t ih =>
    rw [List.foldl_cons]
    exact ih _ (nodupKeys_bumpCount cs v h)

theorem mem_keys_foldl_bump (vals : List String) (cs : List (String × ℕ)) (k : String) :
    k ∈ (vals.foldl bumpCount cs).map Prod.fst ↔ k ∈ cs.map Prod.fst ∨ k ∈ vals := by
  induction vals generalizing cs with
  | nil => simp
  | cons v t ih =>
    rw [List.foldl_cons, ih, keys_bumpCount]
    by_cases hmem : v ∈ cs.map Prod.fst
    · rw [if_pos hmem]
      simp only [List.mem_cons]
      constructor
      · rintro (h | h)
        · exact Or.inl h
        · exact Or.inr (Or.inr h)
      · rintro (h | h | h)
        · exact Or.inl h
        · exact Or.inl (h ▸ hmem)
        · exact Or.inr h
    · rw [if_neg hmem]
      simp only [List.mem_append, List.mem_singleton, List.mem_cons]
      tauto

theorem lookupCount_of_mem (cs : List (String × ℕ)) (k : String) (n : ℕ)
    (hnd : (cs.map Prod.fst).Nodup) (hmem : (k, n) ∈ cs) : lookupCount cs k = n := by
  induction cs with
  | nil => simp at hmem
  | cons c rest ih =>
    rcases List.mem_cons.mp hmem with he | he
    · rw [← he]; simp [lookupCount]
    · have hk : k ∈ rest.map Prod.fst := List.mem_map.mpr ⟨(k, n), he, rfl⟩
      have hck : ¬ c.1 = k := by
        intro h
        rw [List.map_cons, List.nodup_cons] at hnd
        exact hnd.1 (h ▸ hk)
      rw [lookupCount]
      simp [hck]
      exact ih (by rw [List.map_cons, List.nodup_cons] at hnd; exact hnd.2) he

theorem bumpCount_ne_nil (cs : List (String × ℕ)) (k : String) : bumpCount cs k ≠ [] := by
  cases cs <;> simp [bumpCount]
  split <;> simp

theorem foldl_bump_ne_nil (vals : List String) (cs : List (String × ℕ)) (h : cs ≠ []) :
    vals.foldl bumpCount cs ≠ [] := by
  induction vals generalizing cs with
  | nil => simpa
  | cons v t ih =>
    rw [List.foldl_cons]
    exact ih _ (bumpCount_ne_nil cs v)

theorem countsOf_eq_nil_iff (vals : List String) :
    vals.foldl bumpCount [] = [] ↔ vals = [] := by
  cases vals with
  | nil => simp
  | cons v t =>
    constructor
    · intro h
      exact absurd h (by
        rw [List.foldl_cons]
        exact foldl_bump_ne_nil t _ (bumpCount_ne_nil [] v))
    · intro h; exact absurd h (by simp)

theorem get_area_borough_some (area : String) (gs : List (String × List Pub)) (b : String)
    (h : get_area_borough area gs = some b) :
    b ∈ boroughVotes (lookupList gs area) ∧
    ∀ b2, (boroughVotes (lookupList gs area)).count b2 ≤
      (boroughVotes (lookupList gs area)).count b := by
  rcases hmax : maxByFirst (fun c => c.2)
      ((boroughVotes (lookupList gs area)).foldl bumpCount []) with _ | c
  · simp only [get_area_borough, hmax] at h
    exact Option.noConfusion h
  · simp only [get_area_borough, hmax] at h
    have hb : c.1 = b := Option.some.inj h
    rcases maxByFirst_spec _ _ _ hmax with ⟨hmem, hbound, _⟩
    have hnd := nodupKeys_foldl_bump (boroughVotes (lookupList gs area)) [] (by simp)
    have hkey : c.1 ∈ ((boroughVotes (lookupList gs area)).foldl bumpCount []).map Prod.fst :=
      List.mem_map.mpr ⟨c, hmem, rfl⟩
    have hbv : c.1 ∈ boroughVotes (lookupList gs area) := by
      rcases (mem_keys_foldl_bump _ [] c.1).mp hkey with h2 | h2
      · simp at h2
      · exact h2
    have hcount : (boroughVotes (lookupList gs area)).count c.1 = c.2 := by
      have h1 := lookupCount_of_mem _ c.1 c.2 hnd (by
        have : c = (c.1, c.2) := rfl
        rw [← this]; exact hmem)
      have h2 := lookupCount_foldl_bump (boroughVotes (lookupList gs area)) [] c.1
      rw [h1] at h2
      simpa [lookupCount] using h2.symm
    constructor
    · rw [← hb]; exact hbv
    · intro b2
      by_cases hb2 : b2 ∈ boroughVotes (lookupList gs area)
      · have hk2 : b2 ∈ ((boroughVotes (lookupList gs area)).foldl bumpCount []).map
            Prod.fst := (mem_keys_foldl_bump _ [] b2).mpr (Or.inr hb2)
        rcases List.mem_map.mp hk2 with ⟨e, hemem, hek⟩
        have he2 : e = (b2, e.2) := by
          rw [← hek]
        have hcount2 : (boroughVotes (lookupList gs area)).count b2 = e.2 := by
          have h1 := lookupCount_of_mem _ b2 e.2 hnd (by rw [← he2]; exact hemem)
          have h2 := lookupCount_foldl_bump (boroughVotes (lookupList gs area)) [] b2
          rw [h1] at h2
          simpa [lookupCount] using h2.symm
        rw [hcount2, ← hb, hcount]
        exact hbound e hemem
      · rw [List.count_eq_zero.mpr hb2]
        exact Nat.zero_le _

theorem get_area_borough_none_iff (area : String) (gs : List (String × List Pub)) :
    get_area_borough area gs = none ↔ boroughVotes (lookupList gs area) = [] := by
  rcases hmax : maxByFirst (fun c => c.2)
      ((boroughVotes (lookupList gs area)).foldl bumpCount []) with _ | c
  · simp only [get_area_borough, hmax]
    rw [maxByFirst_none_iff] at hmax
    rw [← countsOf_eq_nil_iff]
    simp [hmax]
  · simp only [get_area_borough, hmax]
    rcases maxByFirst_spec _ _ _ hmax with ⟨hmem, _, _⟩
    have hne : (boroughVotes (lookupList gs area)).foldl bumpCount [] ≠ [] := by
      intro h
      rw [h] at hmem
      simp at hmem
    rw [← countsOf_eq_nil_iff]
    simp [hne]


/-- C8 (confirmed): every decision's destination region is
`get_area_borough` of its destination area over the run's clusters;
`get_area_borough` returns a mode of the destination cluster's usable
region values (empty and case-insensitive "none" excluded from the vote)
and `none` exactly when no usable value exists; and a per-record update
without a region writes the area field only, leaving the region field
untouched. -/
theorem c8_region_mode :
    (∀ (dist : ℚ → ℚ → ℚ → ℚ → ℚ) (pubs : List Pub) (minp : ℕ) (mr : Option ℚ)
      (m : MergeDecision), m ∈ (merge_small_areas dist pubs minp mr).merges →
      m.to_borough = get_area_borough m.to_area (group_pubs_by_area pubs))
    ∧ (∀ (area b : String) (gs : List (String × List Pub)),
        get_area_borough area gs = some b →
          b ∈ boroughVotes (lookupList gs area) ∧
          ∀ b2, (boroughVotes (lookupList gs area)).count b2 ≤
            (boroughVotes (lookupList gs area)).count b)
    ∧ (∀ (area : String) (gs : List (String × List Pub)),
        get_area_borough area gs = none ↔ boroughVotes (lookupList gs area) = [])
    ∧ (∀ (p : Pub) (a : String),
        update_pub_area_and_borough p a none = { p with area := some a }) := by
  refine ⟨?_, ?_, ?_, ?_⟩
  · intro dist pubs minp mr m hm
    rcases mem_run_merges dist pubs minp mr m hm with ⟨S, ps, hsmall, hpsa⟩
    rcases processSmallArea_merge_spec dist _ _ mr S ps m hpsa with ⟨t, vs, hmax, hmeq, _⟩
    have hto : m.to_area = t := by rw [hmeq]
    have hbor : m.to_borough = get_area_borough t (group_pubs_by_area pubs) := by rw [hmeq]
    rw [hbor, hto]
  · intro area b gs h
    exact get_area_borough_some area gs b h
  · exact get_area_borough_none_iff
  · intro p a
    rfl

/-- C9 (confirmed): over the reals, `haversine_distance` of a coordinate
pair with itself is 0, and the function is symmetric in its two coordinate
pairs. The Lean embedding is a total pure function, mirroring the claim's
no-side-effect and no-exception requirements for numerically valid
inputs. -/
theorem c9_haversine_identities :
    ∀ lat1 lon1 lat2 lon2 : ℝ,
      haversine_distance lat1 lon1 lat1 lon1 = 0 ∧
      haversine_distance lat1 lon1 lat2 lon2 = haversine_distance lat2 lon2 lat1 lon1 := by
  have hself : ∀ a b : ℝ, hav_a a b a b = 0 := by
    intro a b
    unfold hav_a
    simp [sub_self]
  have hsin : ∀ x y : ℝ, Real.sin ((x - y) / 2) ^ 2 = Real.sin ((y - x) / 2) ^ 2 := by
    intro x y
    rw [show (x - y) / 2 = -((y - x) / 2) by ring, Real.sin_neg]
    ring
  have hsymm : ∀ a b c d : ℝ, hav_a a b c d = hav_a c d a b := by
    intro a b c d
    unfold hav_a
    rw [hsin (radians c) (radians a), hsin (radians d) (radians b)]
    ring
  have hzero : atan2 0 1 = 0 := by
    unfold atan2
    rw [if_pos one_pos, zero_div, Real.arctan_zero]
  intro lat1 lon1 lat2 lon2
  constructor
  · unfold haversine_distance
    rw [hself lat1 lon1, Real.sqrt_zero, sub_zero, Real.sqrt_one, hzero]
    ring
  · unfold haversine_distance
    rw [hsymm lat1 lon1 lat2 lon2]



theorem update_preserves_id (p : Pub) (a : String) (b : Option String) :
    (update_pub_area_and_borough p a b).id = p.id := rfl

theorem update_preserves_coords (p : Pub) (a : String) (b : Option String) :
    (update_pub_area_and_borough p a b).lat = p.lat ∧
    (update_pub_area_and_borough p a b).lon = p.lon := ⟨rfl, rfl⟩

theorem update_area (p : Pub) (a : String) (b : Option String) :
    (update_pub_area_and_borough p a b).area = some a := rfl

theorem applyMerges_append (m1 m2 : List MergeDecision) (p : Pub) :
    applyMerges (m1 ++ m2) p = applyMerges m2 (applyMerges m1 p) := by
  simp [applyMerges, List.foldl_append]

theorem applyMerges_single_match (M1 M2 : List MergeDecision) (m : MergeDecision) (p : Pub)
    (h1 : ∀ m2 ∈ M1, ∀ q ∈ m2.pubs, q.id ≠ p.id)
    (h2 : ∀ m2 ∈ M2, ∀ q ∈ m2.pubs, q.id ≠ p.id)
    (hm : m.pubs.any (fun x => x.id == p.id) = true) :
    applyMerges (M1 ++ m :: M2) p = update_pub_area_and_borough p m.to_area m.to_borough := by
  rw [applyMerges_append, applyMerges_of_no_match M1 p h1]
  show applyMerges (m :: M2) p = _
  rw [applyMerges, List.foldl_cons, hm]
  simp only [if_true]
  have : (update_pub_area_and_borough p m.to_area m.to_borough).id = p.id :=
    update_preserves_id p m.to_area m.to_borough
  rw [show (List.foldl (fun q m =>
      if m.pubs.any (fun x => x.id == q.id) then
        update_pub_area_and_borough q m.to_area m.to_borough
      else q) (update_pub_area_and_borough p m.to_area m.to_borough) M2) =
      applyMerges M2 (update_pub_area_and_borough p m.to_area m.to_borough) from rfl]
  apply applyMerges_of_no_match
  intro m2 hm2 q hq
  rw [this]
  exact h2 m2 hm2 q hq

theorem group_key_valid (pubs : List Pub) (L : String) (ps : List Pub)
    (h : (L, ps) ∈ group_pubs_by_area pubs) : normalizeLabel (some L) = some L := by
  obtain ⟨p, hp⟩ := List.exists_mem_of_ne_nil ps (group_entry_ne_nil pubs L ps h)
  have hm := mem_group_member pubs L ps p h hp
  cases harea : p.area with
  | none =>
    rw [harea] at hm
    exact absurd hm.2.1 (by simp [normalizeLabel])
  | some s =>
    rw [harea] at hm
    exact normalizeLabel_key s L hm.2.1

theorem small_large_key_ne (pubs : List Pub) (minp : ℕ) (S : String) (ps : List Pub)
    (A : String) (qs : List Pub) (hs : (S, ps) ∈ smallAreas pubs minp)
    (hl : (A, qs) ∈ largeAreas pubs minp) : A ≠ S := by
  intro h
  have hs2 := (smallAreas_mem pubs minp S ps).mp hs
  have hl2 := (largeAreas_mem pubs minp A qs).mp hl
  have e1 := group_entry_eq pubs S ps hs2.1
  have e2 := group_entry_eq pubs A qs hl2.1
  rw [h] at e2
  rw [e1] at hs2
  rw [e2] at hl2
  exact absurd hs2.2 (not_lt.mpr hl2.2)

theorem merges_from_inj (dist : ℚ → ℚ → ℚ → ℚ → ℚ) (pubs : List Pub) (minp : ℕ)
    (mr : Option ℚ) (m m2 : MergeDecision)
    (hm : m ∈ (merge_small_areas dist pubs minp mr).merges)
    (hm2 : m2 ∈ (merge_small_areas dist pubs minp mr).merges)
    (hfrom : m.from_area = m2.from_area) : m = m2 := by
  rcases mem_run_merges dist pubs minp mr m hm with ⟨S, ps, hsmall, hpsa⟩
  rcases mem_run_merges dist pubs minp mr m2 hm2 with ⟨S2, ps2, hsmall2, hpsa2⟩
  have e1 : m.from_area = S := by
    rcases processSmallArea_merge_spec dist _ _ mr S ps m hpsa with ⟨t, vs, _, hmeq, _⟩
    rw [hmeq]
  have e2 : m2.from_area = S2 := by
    rcases processSmallArea_merge_spec dist _ _ mr S2 ps2 m2 hpsa2 with ⟨t, vs, _, hmeq, _⟩
    rw [hmeq]
  have hSS : S = S2 := by rw [← e1, ← e2, hfrom]
  rw [← hSS] at hsmall2
  have hps : ps = ps2 := smallAreas_key_inj pubs minp S ps ps2 hsmall hsmall2
  rw [← hSS, ← hps] at hpsa2
  rw [hpsa] at hpsa2
  exact Option.some.inj hpsa2


theorem filterMap_key_sublist {α β : Type} (f : α → Option β) (key : β → String)
    (keyg : α → String) (hk : ∀ g x, f g = some x → key x = keyg g) (l : List α) :
    ((l.filterMap f).map key).Sublist (l.map keyg) := by
  induction l with
  | nil => simp
  | cons g t ih =>
    rw [List.filterMap_cons, List.map_cons]
    cases hf : f g with
    | none => exact List.Sublist.cons (keyg g) ih
    | some x =>
      rw [List.map_cons, hk g x hf]
      exact List.Sublist.cons₂ (keyg g) ih

theorem nodupFrom_run (dist : ℚ → ℚ → ℚ → ℚ → ℚ) (pubs : List Pub) (minp : ℕ)
    (mr : Option ℚ) :
    ((merge_small_areas dist pubs minp mr).merges.map MergeDecision.from_area).Nodup := by
  by_cases h : smallAreas pubs minp = [] ∨ largeAreas pubs minp = []
  · rw [merge_small_areas, if_pos h]
    simp
  · rw [merge_small_areas_eq dist pubs minp mr h]
    refine List.Nodup.sublist ?_ (nodupKeys_smallAreas pubs minp)
    apply filterMap_key_sublist
    intro g m hg
    rcases processSmallArea_merge_spec dist _ _ mr g.1 g.2 m (by
      rw [← hg]) with ⟨t, vs, _, hmeq, _⟩
    rw [hmeq]

theorem small_cluster_decision (dist : ℚ → ℚ → ℚ → ℚ → ℚ) (pubs : List Pub) (minp : ℕ)
    (S : String) (ps : List Pub)
    (hids : (pubs.map Pub.id).Nodup)
    (hL : largeAreas pubs minp ≠ [])
    (hs : (S, ps) ∈ smallAreas pubs minp) :
    ∃ m, (processSmallArea dist (group_pubs_by_area pubs) (allLargePubs pubs minp) none
      (S, ps)).1 = some m := by
  have hs2 := (smallAreas_mem pubs minp S ps).mp hs
  obtain ⟨p0, hp0⟩ := List.exists_mem_of_ne_nil ps (group_entry_ne_nil pubs S ps hs2.1)
  have hp0m := mem_group_member pubs S ps p0 hs2.1 hp0
  obtain ⟨g, hg⟩ := List.exists_mem_of_ne_nil _ hL
  have hg2 := (largeAreas_mem pubs minp g.1 g.2).mp hg
  obtain ⟨o, ho⟩ := List.exists_mem_of_ne_nil g.2 (group_entry_ne_nil pubs g.1 g.2 hg2.1)
  have hom := mem_group_member pubs g.1 g.2 o hg2.1 ho
  have hoall : o ∈ allLargePubs pubs minp :=
    (mem_allLargePubs pubs minp o).mpr ⟨g.1, g.2, hg, ho⟩
  have hAne : g.1 ≠ S := small_large_key_ne pubs minp S ps g.1 g.2 hs hg
  have hone : o ≠ p0 := by
    intro h
    rw [h] at hom
    rw [hom.2.1] at hp0m
    exact hAne (Option.some.inj hp0m.2.1)
  have hid : o.id ≠ p0.id := fun h => hone (List.inj_on_of_nodup_map hids hom.1 hp0m.1 h)
  have hco : truthyCoord o.lat = true ∧ truthyCoord o.lon = true := by
    simpa [validCoords] using hom.2.2
  have helig : eligiblePub p0 S o = true := by
    refine (eligiblePub_iff p0 S o).mpr ⟨hid, ?_, hco.1, hco.2⟩
    rw [normalizeLabel_getD_strip o.area g.1 hom.2.1]
    exact hAne
  cases hfc2 : find_closest_large_area_pub dist p0 (allLargePubs pubs minp) S with
  | none =>
    have := (find_closest_none_iff dist p0 S (allLargePubs pubs minp)).mp hfc2 o hoall
    rw [helig] at this
    exact Bool.noConfusion this
  | some cpd =>
    have hvk : voteKey dist (allLargePubs pubs minp) S p0 =
        some (pystrip (cpd.1.area.getD ""), ⟨p0, cpd.2, cpd.1.name⟩) := by
      simp [voteKey, hfc2]
    have hne : lookupList (collectVotes dist (allLargePubs pubs minp) S ps).1
        (pystrip (cpd.1.area.getD "")) ≠ [] := by
      rw [lookup_votes]
      intro h
      have hmem : (⟨p0, cpd.2, cpd.1.name⟩ : Vote) ∈ ps.filterMap (fun p =>
          (voteKey dist (allLargePubs pubs minp) S p).bind
            (fun kv => if kv.1 = pystrip (cpd.1.area.getD "") then some kv.2 else none)) :=
        List.mem_filterMap.mpr ⟨p0, hp0, by rw [hvk]; simp⟩
      rw [h] at hmem
      simp at hmem
    have hvne : (collectVotes dist (allLargePubs pubs minp) S ps).1 ≠ [] := by
      intro h
      apply hne
      rw [h]
      rfl
    cases hmax : maxByFirst (fun kv => kv.2.length)
        (collectVotes dist (allLargePubs pubs minp) S ps).1 with
    | none => exact absurd ((maxByFirst_none_iff _ _).mp hmax) hvne
    | some tv =>
      exact ⟨_, processSmallArea_noRange_accept dist _ _ S ps tv.1 tv.2 hmax⟩


theorem run_nomatch_large (dist : ℚ → ℚ → ℚ → ℚ → ℚ) (pubs : List Pub) (minp : ℕ)
    (mr : Option ℚ) (L : String) (qsL : List Pub) (p : Pub)
    (hids : (pubs.map Pub.id).Nodup)
    (hlg : (L, qsL) ∈ largeAreas pubs minp) (hp : p ∈ pubs)
    (hlab : normalizeLabel p.area = some L) :
    ∀ m ∈ (merge_small_areas dist pubs minp mr).merges, ∀ q ∈ m.pubs, q.id ≠ p.id := by
  intro m hm q hq hidq
  have hq2 := (run_merge_members dist pubs minp mr m hm).2 q hq
  have hqp : q = p := List.inj_on_of_nodup_map hids hq2.1 hp hidq
  rcases mem_run_merges dist pubs minp mr m hm with ⟨S2, ps2, hsm2, hpsa2⟩
  have hfrom2 : m.from_area = S2 := by
    rcases processSmallArea_merge_spec dist _ _ mr S2 ps2 m hpsa2 with ⟨t, vs, _, hmeq, _⟩
    rw [hmeq]
  have hmL : m.from_area = L := by
    have h1 := hq2.2.1
    rw [hqp, hlab] at h1
    exact (Option.some.inj h1).symm
  exact small_large_key_ne pubs minp S2 ps2 L qsL hsm2 hlg (by rw [← hmL, hfrom2])

theorem run_nomatch_invalid (dist : ℚ → ℚ → ℚ → ℚ → ℚ) (pubs : List Pub) (minp : ℕ)
    (mr : Option ℚ) (p : Pub)
    (hids : (pubs.map Pub.id).Nodup) (hp : p ∈ pubs)
    (hbad : normalizeLabel p.area = none ∨ validCoords p = false) :
    ∀ m ∈ (merge_small_areas dist pubs minp mr).merges, ∀ q ∈ m.pubs, q.id ≠ p.id := by
  intro m hm q hq hidq
  have hq2 := (run_merge_members dist pubs minp mr m hm).2 q hq
  have hqp : q = p := List.inj_on_of_nodup_map hids hq2.1 hp hidq
  rcases hbad with hbad | hbad
  · have h1 := hq2.2.1
    rw [hqp, hbad] at h1
    exact Option.noConfusion h1
  · have h1 := hq2.2.2
    rw [hqp, hbad] at h1
    exact Bool.noConfusion h1

theorem run_apply_small (dist : ℚ → ℚ → ℚ → ℚ → ℚ) (pubs : List Pub) (minp : ℕ)
    (L : String) (psL : List Pub) (p : Pub)
    (hids : (pubs.map Pub.id).Nodup)
    (hfull : ∀ m ∈ (merge_small_areas dist pubs minp none).merges,
      m.pubs = lookupList (group_pubs_by_area pubs) m.from_area)
    (hSne : smallAreas pubs minp ≠ []) (hLne : largeAreas pubs minp ≠ [])
    (hsm : (L, psL) ∈ smallAreas pubs minp) (hp : p ∈ pubs)
    (hlab : normalizeLabel p.area = some L) (hvc : validCoords p = true) :
    ∃ m ∈ (merge_small_areas dist pubs minp none).merges, m.from_area = L ∧
      applyMerges (merge_small_areas dist pubs minp none).merges p =
        update_pub_area_and_borough p m.to_area m.to_borough := by
  obtain ⟨m, hpsa⟩ := small_cluster_decision dist pubs minp L psL hids hLne hsm
  have hmM : m ∈ (merge_small_areas dist pubs minp none).merges := by
    rw [merge_small_areas_eq dist pubs minp none (not_or.mpr ⟨hSne, hLne⟩)]
    exact List.mem_filterMap.mpr ⟨(L, psL), hsm, hpsa⟩
  have hfrom : m.from_area = L := by
    rcases processSmallArea_merge_spec dist _ _ none L psL m hpsa with ⟨t, vs, _, hmeq, _⟩
    rw [hmeq]
  have hpm : p ∈ m.pubs := by
    rw [hfull m hmM, hfrom, lookup_group_eq_filter]
    refine List.mem_filter.mpr ⟨hp, ?_⟩
    unfold groupPred
    simp [hlab, hvc]
  obtain ⟨M1, M2, hsplit⟩ := List.append_of_mem hmM
  have hnd := nodupFrom_run dist pubs minp none
  rw [hsplit, List.map_append, List.map_cons] at hnd
  have hother : ∀ m2, (m2 ∈ M1 ∨ m2 ∈ M2) → ∀ q ∈ m2.pubs, q.id ≠ p.id := by
    intro m2 hm2 q hq hidq
    have hm2M : m2 ∈ (merge_small_areas dist pubs minp none).merges := by
      rw [hsplit]
      rcases hm2 with h | h
      · exact List.mem_append_left _ h
      · exact List.mem_append_right _ (List.mem_cons_of_mem m h)
    have hq2 := (run_merge_members dist pubs minp none m2 hm2M).2 q hq
    have hqp : q = p := List.inj_on_of_nodup_map hids hq2.1 hp hidq
    have hfrom2 : m2.from_area = L := by
      have h1 := hq2.2.1
      rw [hqp, hlab] at h1
      exact (Option.some.inj h1).symm
    rcases hm2 with h | h
    · have hdisj := List.disjoint_of_nodup_append hnd
      exact hdisj (List.mem_map.mpr ⟨m2, h, rfl⟩)
        (by rw [hfrom2, ← hfrom]; exact List.mem_cons_self _ _)
    · have hnd2 := List.Nodup.of_append_right hnd
      rw [List.nodup_cons] at hnd2
      exact hnd2.1 (by rw [hfrom, ← hfrom2]; exact List.mem_map.mpr ⟨m2, h, rfl⟩)
  refine ⟨m, hmM, hfrom, ?_⟩
  rw [hsplit]
  apply applyMerges_single_match
  · intro m2 h; exact hother m2 (Or.inl h)
  · intro m2 h; exact hother m2 (Or.inr h)
  · rw [List.any_eq_true]
    exact ⟨p, hpm, by simp⟩


/-- C5 (amended): the engine is idempotent provided no maximum range is
configured and every accepted decision's member list covers its whole
source cluster (no split votes): the second run's merge plan is empty.
The unqualified claim fails, see the counterexample. -/
theorem c5_amended_idempotent (dist : ℚ → ℚ → ℚ → ℚ → ℚ) (pubs : List Pub) (minp : ℕ)
    (hids : (pubs.map Pub.id).Nodup)
    (hfull : ∀ m ∈ (merge_small_areas dist pubs minp none).merges,
      m.pubs = lookupList (group_pubs_by_area pubs) m.from_area) :
    (merge_small_areas dist
      (applyPlan pubs (merge_small_areas dist pubs minp none).merges) minp none).merges
      = [] := by
  by_cases hempty : smallAreas pubs minp = [] ∨ largeAreas pubs minp = []
  · have hrun : merge_small_areas dist pubs minp none = ⟨[], []⟩ := by
      rw [merge_small_areas, if_pos hempty]
    rw [hrun]
    have happ : applyPlan pubs (RunResult.mk [] []).merges = pubs := by
      show pubs.map (applyMerges []) = pubs
      have h1 : ∀ p, applyMerges [] p = p := fun p => rfl
      calc pubs.map (applyMerges []) = pubs.map id := List.map_congr_left (fun p _ => h1 p)
        _ = pubs := List.map_id pubs
    rw [happ, hrun]
  · rw [not_or] at hempty
    obtain ⟨hSne, hLne⟩ := hempty
    have hbig : ∀ (L2 : String) (ps2 : List Pub),
        (L2, ps2) ∈ group_pubs_by_area
          (applyPlan pubs (merge_small_areas dist pubs minp none).merges) →
        minp ≤ ps2.length := by
      intro L2 ps2 hg2
      obtain ⟨q, hq⟩ := List.exists_mem_of_ne_nil ps2 (group_entry_ne_nil _ L2 ps2 hg2)
      have hqm := mem_group_member _ L2 ps2 q hg2 hq
      have hq1 := hqm.1
      rw [applyPlan] at hq1
      rcases List.mem_map.mp hq1 with ⟨p, hp, hpq⟩
      have hL2large : ∃ qs1, (L2, qs1) ∈ largeAreas pubs minp := by
        by_cases hvcp : validCoords p = true
        · cases hlabp : normalizeLabel p.area with
          | none =>
            exfalso
            have hnm := run_nomatch_invalid dist pubs minp none p hids hp (Or.inl hlabp)
            have hq2 : q = p := by rw [← hpq, applyMerges_of_no_match _ p hnm]
            have h1 := hqm.2.1
            rw [hq2, hlabp] at h1
            exact Option.noConfusion h1
          | some L =>
            have hpin : p ∈ lookupList (group_pubs_by_area pubs) L := by
              rw [lookup_group_eq_filter]
              refine List.mem_filter.mpr ⟨hp, ?_⟩
              unfold groupPred
              simp [hlabp, hvcp]
            have hkey : (L, lookupList (group_pubs_by_area pubs) L) ∈
                group_pubs_by_area pubs :=
              mem_of_lookupList_ne_nil _ L (List.ne_nil_of_mem hpin)
            by_cases hsmallL : (lookupList (group_pubs_by_area pubs) L).length < minp
            · have hsm : (L, lookupList (group_pubs_by_area pubs) L) ∈
                  smallAreas pubs minp := (smallAreas_mem pubs minp L _).mpr ⟨hkey, hsmallL⟩
              obtain ⟨m, hmM, hfrom, happ⟩ := run_apply_small dist pubs minp L _ p hids hfull
                hSne hLne hsm hp hlabp hvcp
              have hqu : q = update_pub_area_and_borough p m.to_area m.to_borough := by
                rw [← hpq, happ]
              obtain ⟨_, ⟨qs1, hqs1, hqs1len⟩, _⟩ :=
                run_merge_shape dist pubs minp none m hmM
              have hqlab : normalizeLabel q.area = some m.to_area := by
                rw [hqu, update_area]
                exact group_key_valid pubs m.to_area qs1 hqs1
              have hL2 : L2 = m.to_area :=
                Option.some.inj (hqm.2.1.symm.trans hqlab)
              refine ⟨qs1, ?_⟩
              rw [hL2]
              exact (largeAreas_mem pubs minp m.to_area qs1).mpr ⟨hqs1, hqs1len⟩
            · have hlg : (L, lookupList (group_pubs_by_area pubs) L) ∈
                  largeAreas pubs minp :=
                (largeAreas_mem pubs minp L _).mpr ⟨hkey, not_lt.mp hsmallL⟩
              have hnm := run_nomatch_large dist pubs minp none L _ p hids hlg hp hlabp
              have hq2 : q = p := by rw [← hpq, applyMerges_of_no_match _ p hnm]
              have hL2 : L2 = L :=
                Option.some.inj (hqm.2.1.symm.trans (by rw [hq2]; exact hlabp))
              refine ⟨lookupList (group_pubs_by_area pubs) L, ?_⟩
              rw [hL2]
              exact hlg
        · exfalso
          have hbad2 : normalizeLabel p.area = none ∨ validCoords p = false := by
            right
            cases h : validCoords p
            · rfl
            · exact absurd h hvcp
          have hnm := run_nomatch_invalid dist pubs minp none p hids hp hbad2
          have hq2 : q = p := by rw [← hpq, applyMerges_of_no_match _ p hnm]
          have h1 := hqm.2.2
          rw [hq2] at h1
          exact hvcp h1
      obtain ⟨qs1, hqs1⟩ := hL2large
      have hq1mem := (largeAreas_mem pubs minp L2 qs1).mp hqs1
      have hq1eq : qs1 = pubs.filter (groupPred L2) := group_entry_eq pubs L2 qs1 hq1mem.1
      have hps2eq : ps2 = (applyPlan pubs
          (merge_small_areas dist pubs minp none).merges).filter (groupPred L2) :=
        group_entry_eq _ L2 ps2 hg2
      have hcnt : (pubs.filter (groupPred L2)).length ≤
          ((applyPlan pubs (merge_small_areas dist pubs minp none).merges).filter
            (groupPred L2)).length := by
        rw [← List.countP_eq_length_filter, ← List.countP_eq_length_filter]
        rw [applyPlan, List.countP_map]
        apply List.countP_mono_left
        intro p2 hp2 hpred
        have hlab2 : normalizeLabel p2.area = some L2 := by
          unfold groupPred at hpred
          simp at hpred
          exact hpred.1
        have hnm := run_nomatch_large dist pubs minp none L2 qs1 p2 hids hqs1 hp2 hlab2
        show groupPred L2 (applyMerges (merge_small_areas dist pubs minp none).merges p2)
          = true
        rw [applyMerges_of_no_match _ p2 hnm]
        exact hpred
      calc minp ≤ qs1.length := hq1mem.2
        _ = (pubs.filter (groupPred L2)).length := by rw [hq1eq]
        _ ≤ _ := hcnt
        _ = ps2.length := by rw [← hps2eq]
    have hsm2 : smallAreas
        (applyPlan pubs (merge_small_areas dist pubs minp none).merges) minp = [] := by
      rw [List.eq_nil_iff_forall_not_mem]
      intro g hg
      have hg2 := (smallAreas_mem _ minp g.1 g.2).mp hg
      exact absurd (hbig g.1 g.2 hg2.1) (not_le.mpr hg2.2)
    rw [merge_small_areas, if_pos (Or.inl hsm2)]



/-- C3 (amended): the Nearest-Major Finder returns `none` exactly when no
eligible candidate exists; otherwise it returns an eligible candidate at the
minimal distance, and ties resolve to the first candidate encountered in the
flattened major-record list — whose order is the order major areas first
appear in the input, not label-sorted order. -/
theorem c3_amended_nearest (dist : ℚ → ℚ → ℚ → ℚ → ℚ) (pub : Pub) (ex : String)
    (l : List Pub) :
    (find_closest_large_area_pub dist pub l ex = none ↔
      ∀ o ∈ l, eligiblePub pub ex o = false)
    ∧ ∀ (m : Pub) (d : ℚ), find_closest_large_area_pub dist pub l ex = some (m, d) →
      m ∈ l ∧ eligiblePub pub ex m = true ∧ d = distOf dist pub m ∧
      (∀ o ∈ l, eligiblePub pub ex o = true → d ≤ distOf dist pub o) ∧
      ∃ l₁ l₂, l = l₁ ++ m :: l₂ ∧
        ∀ o ∈ l₁, eligiblePub pub ex o = true → d < distOf dist pub o :=
  ⟨find_closest_none_iff dist pub ex l, fun m d h => find_closest_spec dist pub ex l m d h⟩

/-- C1 counterexample: on `exPubs` the minor cluster "S" has two
coordinate-valid members that both obtained nearest-major candidates
(s1 voting "Z", s2 voting "A"), yet the accepted decision lists only s1;
s2 appears in no decision, refuting the claim that the member list contains
every voting member of the cluster. -/
theorem c1_counterexample :
    (merge_small_areas taxiDist exPubs 3 none).merges.map
        (fun m => (m.from_area, m.to_area, m.pubs.map Pub.id)) = [("S", "Z", ["s1"])]
    ∧ find_closest_large_area_pub taxiDist s2pub (allLargePubs exPubs 3) "S" =
        some (a1pub, 1/2)
    ∧ validCoords s2pub = true
    ∧ s2pub ∈ lookupList (group_pubs_by_area exPubs) "S"
    ∧ ((merge_small_areas taxiDist exPubs 3 none).merges.map MergeDecision.pubs).flatten =
        [s1pub]
    ∧ s2pub ≠ s1pub := by
  with_unfolding_all decide

/-- C1 witness: the amended theorem applied to the decision the engine
produces on `exPubs`. -/
theorem c1_amended_members_witness :
    ∃ ps, (exDecision.from_area, ps) ∈ group_pubs_by_area exPubs ∧ ps.length < 3 ∧
      exDecision.pubs = ps.filterMap (fun p =>
        match find_closest_large_area_pub taxiDist p (allLargePubs exPubs 3)
            exDecision.from_area with
        | some cpd => if pystrip (cpd.1.area.getD "") = exDecision.to_area then some p
            else none
        | none => none) ∧
      ∀ p ∈ exDecision.pubs,
        (update_pub_area_and_borough p exDecision.to_area exDecision.to_borough).area =
          some exDecision.to_area :=
  c1_amended_members taxiDist exPubs 3 none exDecision (by with_unfolding_all decide)

/-- C2 counterexample: on `exPubs` the two vote groups tie 1 to 1, the "A"
group has the strictly smaller average distance and the lexicographically
smaller label, yet the engine picks "Z", the first-encountered key. -/
theorem c2_counterexample :
    (merge_small_areas taxiDist exPubs 3 none).merges.map MergeDecision.to_area = ["Z"]
    ∧ (collectVotes taxiDist (allLargePubs exPubs 3) "S"
        (lookupList (group_pubs_by_area exPubs) "S")).1 =
        [("Z", [⟨s1pub, 2, "Z1"⟩]), ("A", [⟨s2pub, 1/2, "A1"⟩])]
    ∧ avgDistance [⟨s2pub, 1/2, "A1"⟩] < avgDistance [⟨s1pub, 2, "Z1"⟩]
    ∧ ("A" : String) < "Z"
    ∧ ("Z" : String) ≠ "A" := by
  with_unfolding_all decide

/-- C2 witness: the amended theorem applied to the engine's decision on
`exPubs`. -/
theorem c2_amended_tiebreak_witness :
    ∃ vs vl₁ vl₂,
      (collectVotes taxiDist (allLargePubs exPubs 3) "S" [s1pub, s2pub]).1 =
        vl₁ ++ (exDecision.to_area, vs) :: vl₂ ∧
      exDecision.pubs = vs.map Vote.pub ∧
      (∀ kv ∈ (collectVotes taxiDist (allLargePubs exPubs 3) "S" [s1pub, s2pub]).1,
        kv.2.length ≤ vs.length) ∧
      (∀ kv ∈ vl₁, kv.2.length < vs.length) :=
  c2_amended_tiebreak taxiDist (group_pubs_by_area exPubs) (allLargePubs exPubs 3) none
    "S" [s1pub, s2pub] exDecision (by with_unfolding_all decide)

/-- C3 counterexample: the "S" record of `pubsC3` is equidistant from a
member of major cluster "B" and a member of major cluster "A"; label-sorted
iteration would visit "A" first, but the finder returns the "B" member
because "B" appears first in the input order. -/
theorem c3_counterexample :
    find_closest_large_area_pub taxiDist sc3 (allLargePubs pubsC3 3) "S" = some (b1c3, 2)
    ∧ a1c3 ∈ allLargePubs pubsC3 3
    ∧ eligiblePub sc3 "S" a1c3 = true
    ∧ distOf taxiDist sc3 a1c3 = 2
    ∧ pystrip (b1c3.area.getD "") = "B"
    ∧ pystrip (a1c3.area.getD "") = "A"
    ∧ ("A" : String) < "B"
    ∧ b1c3 ≠ a1c3 := by
  with_unfolding_all decide

/-- C3 witness: the amended theorem applied to the concrete tie on
`pubsC3`. -/
theorem c3_amended_nearest_witness :
    b1c3 ∈ allLargePubs pubsC3 3 ∧ eligiblePub sc3 "S" b1c3 = true ∧
    (2 : ℚ) = distOf taxiDist sc3 b1c3 ∧
    (∀ o ∈ allLargePubs pubsC3 3, eligiblePub sc3 "S" o = true →
      (2 : ℚ) ≤ distOf taxiDist sc3 o) ∧
    ∃ l₁ l₂, allLargePubs pubsC3 3 = l₁ ++ b1c3 :: l₂ ∧
      ∀ o ∈ l₁, eligiblePub sc3 "S" o = true → (2 : ℚ) < distOf taxiDist sc3 o :=
  (c3_amended_nearest taxiDist sc3 "S" (allLargePubs pubsC3 3)).2 b1c3 2
    (by with_unfolding_all decide)

/-- C4 witness: on `exPubs` with range 1 km the chosen group's maximum
distance 2 exceeds the range, the cluster is rejected, and member s1 is
untouched by the apply phase. -/
theorem c4_all_or_nothing_witness :
    ((processSmallArea taxiDist (group_pubs_by_area exPubs) (allLargePubs exPubs 3)
        (some 1) ("S", [s1pub, s2pub])).1 = none ↔
      (1 : ℚ) < listMax (([⟨s1pub, 2, "Z1"⟩] : List Vote).map Vote.distance)) ∧
    applyMerges (merge_small_areas taxiDist exPubs 3 (some 1)).merges s1pub = s1pub :=
  ⟨(c4_all_or_nothing.1 taxiDist (group_pubs_by_area exPubs) (allLargePubs exPubs 3) 1
      "S" [s1pub, s2pub] "Z" [⟨s1pub, 2, "Z1"⟩] (by with_unfolding_all decide)).1,
   c4_all_or_nothing.2 taxiDist exPubs 3 1 2 "S" [s1pub, s2pub]
      (by with_unfolding_all decide) (by with_unfolding_all decide) s1pub
      (by with_unfolding_all decide)⟩

/-- C5 counterexample: on `exPubs` the first run merges only s1 into "Z";
the split-vote member s2 keeps the minor label "S", so re-running the
engine on the applied dataset produces a non-empty plan. -/
theorem c5_counterexample :
    (merge_small_areas taxiDist
        (applyPlan exPubs (merge_small_areas taxiDist exPubs 3 none).merges) 3
        none).merges.map (fun m => (m.from_area, m.to_area, m.pubs.map Pub.id)) =
      [("S", "A", ["s2"])]
    ∧ (merge_small_areas taxiDist
        (applyPlan exPubs (merge_small_areas taxiDist exPubs 3 none).merges) 3
        none).merges ≠ [] := by
  with_unfolding_all decide

/-- C5 witness: on `wPubs` (one large cluster, one single-member minor
cluster) the second run after applying the plan is empty. -/
theorem c5_amended_idempotent_witness :
    (merge_small_areas taxiDist
      (applyPlan wPubs (merge_small_areas taxiDist wPubs 3 none).merges) 3 none).merges
      = [] :=
  c5_amended_idempotent taxiDist wPubs 3 (by with_unfolding_all decide)
    (by with_unfolding_all decide)

/-- C6 counterexample: a record with latitude numerically 0 (present and
numeric), longitude 1 and a usable label is excluded from clustering
entirely, refuting the claim that zero coordinates are included. -/
theorem c6_counterexample :
    group_pubs_by_area [c6pub] = []
    ∧ normalizeLabel c6pub.area = some "Area51"
    ∧ c6pub.lat = some 0 ∧ c6pub.lon = some 1 := by
  with_unfolding_all decide

/-- C6 witness: the amended theorem applied to an included record of
`exPubs` and to the excluded zero-latitude record `c6pub`. -/
theorem c6_amended_truthy_coords_witness :
    (s1pub ∈ lookupList (group_pubs_by_area exPubs) "S" ↔ validCoords s1pub = true) ∧
    (c6pub ∈ lookupList (group_pubs_by_area [c6pub]) "Area51" ↔
      validCoords c6pub = true) :=
  ⟨c6_amended_truthy_coords exPubs s1pub "S" (by with_unfolding_all decide)
      (by with_unfolding_all decide),
   c6_amended_truthy_coords [c6pub] c6pub "Area51" (by with_unfolding_all decide)
      (by with_unfolding_all decide)⟩

/-- C7 counterexample: a single labeled record with no coordinates yields
an empty plan and an empty skip list — it is reported in no category, so
the summary's counts (all zero) cannot sum to the input total of 1. -/
theorem c7_counterexample :
    merge_small_areas taxiDist [c7pub] 3 none = ⟨[], []⟩
    ∧ normalizeLabel c7pub.area = some "Lonely"
    ∧ [c7pub].length = 1 := by
  with_unfolding_all decide

/-- C7 witness: the amended theorem applied to the `exPubs` run and its
planned member s1. -/
theorem c7_amended_accounting_witness :
    (((merge_small_areas taxiDist exPubs 3 none).merges.map MergeDecision.count).sum =
      ((merge_small_areas taxiDist exPubs 3 none).merges.map
        (fun m => m.pubs.length)).sum) ∧
    (s1pub ∈ exPubs ∧ normalizeLabel s1pub.area = some "S" ∧
      validCoords s1pub = true) :=
  ⟨(c7_amended_accounting taxiDist exPubs 3 none).1,
   ((c7_amended_accounting taxiDist exPubs 3 none).2 exDecision
      (by with_unfolding_all decide)).2 s1pub (by with_unfolding_all decide)⟩

/-- C8 witness: on `wPubs` the "M" to "L" decision inherits region
"Central", the mode of "L"'s region values, and a region-less update
changes area only. -/
theorem c8_region_mode_witness :
    ((⟨"M", "L", some "Central", [w4pub], 1, 1, 1⟩ : MergeDecision).to_borough =
      get_area_borough "L" (group_pubs_by_area wPubs)) ∧
    ("Central" ∈ boroughVotes (lookupList (group_pubs_by_area wPubs) "L") ∧
      ∀ b2, (boroughVotes (lookupList (group_pubs_by_area wPubs) "L")).count b2 ≤
        (boroughVotes (lookupList (group_pubs_by_area wPubs) "L")).count "Central") ∧
    update_pub_area_and_borough w4pub "L" none = { w4pub with area := some "L" } :=
  ⟨c8_region_mode.1 taxiDist wPubs 3 none ⟨"M", "L", some "Central", [w4pub], 1, 1, 1⟩
      (by with_unfolding_all decide),
   c8_region_mode.2.1 "L" "Central" (group_pubs_by_area wPubs)
      (by with_unfolding_all decide),
   c8_region_mode.2.2.2 w4pub "L"⟩

/-- C10 witness: the invariants instantiated at the decision the engine
produces on `exPubs`. -/
theorem c10_invariants_witness :
    exDecision.to_area ≠ exDecision.from_area ∧
    (∃ qs, (exDecision.to_area, qs) ∈ group_pubs_by_area exPubs ∧ 3 ≤ qs.length) ∧
    exDecision.pubs ≠ [] :=
  c10_invariants taxiDist exPubs 3 none exDecision (by with_unfolding_all decide)


end PubTracker
